import Mathlib

/-!
Verification of the geometric core of a 2D canvas scene-graph library:
affine matrix algebra (compose / decompose / invert / multiply), object
corner geometry, free-hand stroke capture (point capture and decimation),
the bounding-box helper, and the eraser compositing pipeline (path
attachment and pattern preparation with its restoration discipline).

Numbers are embedded as exact fields: the library's IEEE doubles are
idealised as `ℝ` where trigonometry is involved and as `ℚ` in the purely
arithmetic stroke-capture code, so that statements about floating-point
tolerance become exact equalities.
-/

namespace Fabric

noncomputable section

/-- Coordinate pair, the library's `XY`/`Point` value type.  `Point.ts` is
not among the analysed sources; the `Point` operations used by them
(componentwise `min`/`max`, midpoint, `eq`, rotation about an origin, and
transform-by-matrix) are modelled from the spec where needed and are kept
as close as possible to their documented meaning. -/
@[ext]
structure XY (α : Type) where
  x : α
  y : α
  deriving DecidableEq, Repr

/-- Affine 2x3 transform matrix `[a, b, c, d, e, f]` (the library's
`TMat2D`): linear part `[[a, c], [b, d]]` plus translation `(e, f)`. -/
@[ext]
structure TMat2D where
  a : ℝ
  b : ℝ
  c : ℝ
  d : ℝ
  e : ℝ
  f : ℝ

/-- Identity matrix (the library's `iMatrix` constant). -/
def iMatrix : TMat2D := ⟨1, 0, 0, 1, 0, 0⟩

/-- Modelled from the spec: `Point#transform(t, ignoreOffset)` applies the
affine matrix to the point; with `ignoreOffset` the translation component
is not added.  This is the body of the source's `transformPoint` helper,
which delegates to `Point#transform`. -/
def transformPoint (p : XY ℝ) (t : TMat2D) (ignoreOffset : Bool) : XY ℝ :=
  ⟨t.a * p.x + t.c * p.y + (if ignoreOffset then 0 else t.e),
   t.b * p.x + t.d * p.y + (if ignoreOffset then 0 else t.f)⟩

/-- Invert transformation `t` (`invertTransform`): reciprocal-determinant
scaling of the cofactor matrix for the linear part, then the original
translation is inverse-transformed ignoring offset and negated. -/
def invertTransform (t : TMat2D) : TMat2D :=
  let a := 1 / (t.a * t.d - t.b * t.c)
  let r : TMat2D := ⟨a * t.d, -a * t.b, -a * t.c, a * t.a, 0, 0⟩
  let p := transformPoint ⟨t.e, t.f⟩ r true
  ⟨r.a, r.b, r.c, r.d, -p.x, -p.y⟩

/-- Multiply matrix `a` by matrix `b` to nest transformations
(`multiplyTransformMatrices`); with `is2x2` the translation entries of the
product are forced to `0`. -/
def multiplyTransformMatrices (a b : TMat2D) (is2x2 : Bool) : TMat2D :=
  ⟨a.a * b.a + a.c * b.b,
   a.b * b.a + a.d * b.b,
   a.a * b.c + a.c * b.d,
   a.b * b.c + a.d * b.d,
   if is2x2 then 0 else a.a * b.e + a.c * b.f + a.e,
   if is2x2 then 0 else a.b * b.e + a.d * b.f + a.f⟩

/-- Right-to-left fold of a list of optional matrices starting from the
identity (`multiplyTransformMatrixArray`); `none` entries (the source's
falsy entries) are skipped. -/
def multiplyTransformMatrixArray (matrices : List (Option TMat2D))
    (is2x2 : Bool) : TMat2D :=
  matrices.foldr
    (fun curr product =>
      match curr with
      | some m => multiplyTransformMatrices m product is2x2
      | none => product)
    iMatrix

/-- Modelled from the spec: `degreesToRadians` from
`radiansDegreesConversion.ts` (not among the analysed sources): degrees
are converted to radians at the trigonometric boundary. -/
def degreesToRadians (degrees : ℝ) : ℝ := degrees * (Real.pi / 180)

/-- Modelled from the spec: `radiansToDegrees` from
`radiansDegreesConversion.ts` (not among the analysed sources). -/
def radiansToDegrees (radians : ℝ) : ℝ := radians / Real.pi * 180

/-- Modelled from the spec: JavaScript `Math.atan2 y x` — the angle in
`(-π, π]` of the vector `(x, y)`, i.e. the argument of the complex number
`x + y·i`. -/
def atan2 (y x : ℝ) : ℝ := Complex.arg ⟨x, y⟩

/-- Components returned by `qrDecompose` (`TQrDecomposeOut`). -/
@[ext]
structure TQrDecomposeOut where
  angle : ℝ
  scaleX : ℝ
  scaleY : ℝ
  skewX : ℝ
  skewY : ℝ
  translateX : ℝ
  translateY : ℝ

/-- Decompose a standard 2x3 matrix into transform components
(`qrDecompose`).  Angles are returned in degrees; `skewY` is always `0`;
the translation entries go through the source's `a[4] || 0` guard. -/
def qrDecompose (m : TMat2D) : TQrDecomposeOut :=
  let angle := atan2 m.b m.a
  let denom := m.a ^ 2 + m.b ^ 2
  let scaleX := Real.sqrt denom
  let scaleY := (m.a * m.d - m.c * m.b) / scaleX
  let skewX := atan2 (m.a * m.c + m.b * m.d) denom
  ⟨radiansToDegrees angle, scaleX, scaleY, radiansToDegrees skewX, 0,
   if m.e = 0 then 0 else m.e, if m.f = 0 then 0 else m.f⟩

/-- Translation matrix (`createTranslateMatrix`). -/
def createTranslateMatrix (x y : ℝ) : TMat2D := ⟨1, 0, 0, 1, x, y⟩

/-- Rotation matrix about a pivot point (`createRotateMatrix`).  The
source's `cos`/`sin` helpers agree with real cosine and sine; the
translation entries reproduce the source's `x ? … : 0` / `y ? … : 0`
conditionals literally. -/
def createRotateMatrix (angle : ℝ) (pivot : XY ℝ) : TMat2D :=
  let angleRadiant := degreesToRadians angle
  let cosValue := Real.cos angleRadiant
  let sinValue := Real.sin angleRadiant
  ⟨cosValue, sinValue, -sinValue, cosValue,
   if pivot.x = 0 then 0
   else pivot.x - (cosValue * pivot.x - sinValue * pivot.y),
   if pivot.y = 0 then 0
   else pivot.y - (sinValue * pivot.x + cosValue * pivot.y)⟩

/-- Scale matrix about the origin (`createScaleMatrix`). -/
def createScaleMatrix (x y : ℝ) : TMat2D := ⟨x, 0, 0, y, 0, 0⟩

/-- Degree angle to skew factor (`angleToSkew`). -/
def angleToSkew (angle : ℝ) : ℝ := Real.tan (degreesToRadians angle)

/-- Skew matrix for the X axis (`createSkewXMatrix`). -/
def createSkewXMatrix (skewValue : ℝ) : TMat2D :=
  ⟨1, 0, angleToSkew skewValue, 1, 0, 0⟩

/-- Skew matrix for the Y axis (`createSkewYMatrix`). -/
def createSkewYMatrix (skewValue : ℝ) : TMat2D :=
  ⟨1, angleToSkew skewValue, 0, 1, 0, 0⟩

/-- Arguments of `calcDimensionsMatrix` (`TScaleMatrixArgs`), with the
source's default values. -/
structure TScaleMatrixArgs where
  scaleX : ℝ := 1
  scaleY : ℝ := 1
  flipX : Bool := false
  flipY : Bool := false
  skewX : ℝ := 0
  skewY : ℝ := 0

/-- Scale/flip/skew (dimensions-affecting) part of the transform
(`calcDimensionsMatrix`); the skew factors are skipped when falsy, and the
matrices are multiplied as 2x2 matrices. -/
def calcDimensionsMatrix (args : TScaleMatrixArgs) : TMat2D :=
  multiplyTransformMatrixArray
    [some (createScaleMatrix (if args.flipX then -args.scaleX else args.scaleX)
        (if args.flipY then -args.scaleY else args.scaleY)),
     if args.skewX = 0 then none else some (createSkewXMatrix args.skewX),
     if args.skewY = 0 then none else some (createSkewYMatrix args.skewY)]
    true

/-- Arguments of `composeMatrix` (`TComposeMatrixArgs`), with the source's
default values. -/
structure TComposeMatrixArgs where
  translateX : ℝ := 0
  translateY : ℝ := 0
  angle : ℝ := 0
  scaleX : ℝ := 1
  scaleY : ℝ := 1
  flipX : Bool := false
  flipY : Bool := false
  skewX : ℝ := 0
  skewY : ℝ := 0

/-- Compose a transform matrix from components (`composeMatrix`):
`Translate · Rotate · (Scale`/`Flip · SkewX · SkewY)`, the rotation being
skipped when the angle is falsy. -/
def composeMatrix (options : TComposeMatrixArgs) : TMat2D :=
  multiplyTransformMatrixArray
    [some (createTranslateMatrix options.translateX options.translateY),
     if options.angle = 0 then none
     else some (createRotateMatrix options.angle ⟨0, 0⟩),
     some (calcDimensionsMatrix
       ⟨options.scaleX, options.scaleY, options.flipX, options.flipY,
        options.skewX, options.skewY⟩)]
    false

/-- View the output of `qrDecompose` as input for `composeMatrix`
(in the source both are plain option bags and the flip flags default to
`false`). -/
def toComposeArgs (q : TQrDecomposeOut) : TComposeMatrixArgs :=
  ⟨q.translateX, q.translateY, q.angle, q.scaleX, q.scaleY, false, false,
   q.skewX, q.skewY⟩

/-- Componentwise minimum (`Point#min`, modelled from the spec). -/
def pointMin {α : Type} [LinearOrder α] (p q : XY α) : XY α :=
  ⟨min p.x q.x, min p.y q.y⟩

/-- Componentwise maximum (`Point#max`, modelled from the spec). -/
def pointMax {α : Type} [LinearOrder α] (p q : XY α) : XY α :=
  ⟨max p.x q.x, max p.y q.y⟩

/-- Bounding box record (`TBBox`). -/
structure TBBox (α : Type) where
  left : α
  top : α
  width : α
  height : α
  deriving DecidableEq, Repr

/-- The `reduce` callback of `makeBoundingBoxFromPoints`: extend the
running `(min, max)` pair by one point. -/
def bbStep {α : Type} [LinearOrder α] (s : XY α × XY α) (curr : XY α) :
    XY α × XY α :=
  (pointMin s.1 curr, pointMax s.2 curr)

/-- Calculates the bounding box from the given points
(`makeBoundingBoxFromPoints`).  The empty list yields the zero box;
otherwise a fold over the whole list starting from the first point as
both running minimum and running maximum, exactly as the source's
`reduce` with an initial accumulator. -/
def makeBoundingBoxFromPoints {α : Type} [LinearOrderedField α]
    (points : List (XY α)) : TBBox α :=
  match points with
  | [] => ⟨0, 0, 0, 0⟩
  | p0 :: _ =>
    let mm := points.foldl bbStep (⟨p0.x, p0.y⟩, ⟨p0.x, p0.y⟩)
    ⟨mm.1.x, mm.1.y, mm.2.x - mm.1.x, mm.2.y - mm.1.y⟩

/-- Horizontal origin anchor (`TOriginX`). -/
inductive TOriginX
  | left
  | center
  | right
  deriving DecidableEq, Repr

/-- Vertical origin anchor (`TOriginY`). -/
inductive TOriginY
  | top
  | center
  | bottom
  deriving DecidableEq, Repr

/-- Modelled from the spec: `resolveOrigin` (resolveOrigin.ts is not among
the analysed sources): left/top ↦ 0, center ↦ 0.5, right/bottom ↦ 1.
Only differences of resolved origins are ever used. -/
def resolveOriginX : TOriginX → ℝ
  | .left => 0
  | .center => 1 / 2
  | .right => 1

/-- Modelled from the spec: vertical counterpart of `resolveOriginX`. -/
def resolveOriginY : TOriginY → ℝ
  | .top => 0
  | .center => 1 / 2
  | .bottom => 1

/-- Geometric property subset of a scene object (`ObjectOrigin` /
`ObjectGeometry` declared fields used by the corner computation). -/
structure FabObject where
  left : ℝ
  top : ℝ
  width : ℝ
  height : ℝ
  scaleX : ℝ
  scaleY : ℝ
  skewX : ℝ
  skewY : ℝ
  angle : ℝ
  strokeWidth : ℝ
  strokeUniform : Bool
  originX : TOriginX
  originY : TOriginY

/-- Optional overrides accepted by `_getTransformedDimensions`; every
omitted field falls back to the object's own property. -/
structure DimOptions where
  scaleX : Option ℝ := none
  scaleY : Option ℝ := none
  skewX : Option ℝ := none
  skewY : Option ℝ := none
  width : Option ℝ := none
  height : Option ℝ := none
  strokeWidth : Option ℝ := none

/-- Modelled from the spec: `Point#rotate radians origin` rotates the
point about `origin` by `radians`. -/
def pointRotate (p : XY ℝ) (radians : ℝ) (origin : XY ℝ) : XY ℝ :=
  let c := Real.cos radians
  let s := Real.sin radians
  ⟨origin.x + (c * (p.x - origin.x) - s * (p.y - origin.y)),
   origin.y + (s * (p.x - origin.x) + c * (p.y - origin.y))⟩

/-- Modelled from the spec: `sizeAfterTransform` (objectTransforms.ts is
not among the analysed sources): the size of the bounding box of the four
`±width/2, ±height/2` corners mapped through the scale/skew dimensions
matrix. -/
def sizeAfterTransform (width height : ℝ) (options : TScaleMatrixArgs) :
    XY ℝ :=
  let dimX := width / 2
  let dimY := height / 2
  let transformMatrix := calcDimensionsMatrix options
  let points := [transformPoint ⟨-dimX, -dimY⟩ transformMatrix true,
                 transformPoint ⟨dimX, -dimY⟩ transformMatrix true,
                 transformPoint ⟨-dimX, dimY⟩ transformMatrix true,
                 transformPoint ⟨dimX, dimY⟩ transformMatrix true]
  let bbox := makeBoundingBoxFromPoints points
  ⟨bbox.width, bbox.height⟩

/-- Object bounding-box dimensions from scale and skew
(`ObjectOrigin._getTransformedDimensions`): stroke width is folded in
before scaling, or added flat after scaling when `strokeUniform` is set;
without skew the dimensions are simply scaled, otherwise they go through
`sizeAfterTransform`. -/
def getTransformedDimensions (o : FabObject) (options : DimOptions) : XY ℝ :=
  let scaleX := options.scaleX.getD o.scaleX
  let scaleY := options.scaleY.getD o.scaleY
  let skewX := options.skewX.getD o.skewX
  let skewY := options.skewY.getD o.skewY
  let width := options.width.getD o.width
  let height := options.height.getD o.height
  let strokeWidth := options.strokeWidth.getD o.strokeWidth
  let preScalingStrokeValue := if o.strokeUniform then 0 else strokeWidth
  let postScalingStrokeValue := if o.strokeUniform then strokeWidth else 0
  let dimX := width + preScalingStrokeValue
  let dimY := height + preScalingStrokeValue
  let finalDimensions :=
    if skewX = 0 ∧ skewY = 0 then (⟨dimX * scaleX, dimY * scaleY⟩ : XY ℝ)
    else sizeAfterTransform dimX dimY ⟨scaleX, scaleY, false, false, skewX, skewY⟩
  ⟨finalDimensions.x + postScalingStrokeValue,
   finalDimensions.y + postScalingStrokeValue⟩

/-- Translate a point from one origin anchor to another
(`ObjectOrigin.translateToGivenOrigin`). -/
def translateToGivenOrigin (o : FabObject) (point : XY ℝ)
    (fromOriginX : TOriginX) (fromOriginY : TOriginY)
    (toOriginX : TOriginX) (toOriginY : TOriginY) : XY ℝ :=
  let x := point.x
  let y := point.y
  let offsetX := resolveOriginX toOriginX - resolveOriginX fromOriginX
  let offsetY := resolveOriginY toOriginY - resolveOriginY fromOriginY
  if offsetX ≠ 0 ∨ offsetY ≠ 0 then
    let dim := getTransformedDimensions o {}
    ⟨x + offsetX * dim.x, y + offsetY * dim.y⟩
  else ⟨x, y⟩

/-- Translate anchor-relative coordinates to center coordinates
(`ObjectOrigin.translateToCenterPoint`); when the angle is truthy, the
result is rotated about the input point. -/
def translateToCenterPoint (o : FabObject) (point : XY ℝ)
    (originX : TOriginX) (originY : TOriginY) : XY ℝ :=
  let p := translateToGivenOrigin o point originX originY .center .center
  if o.angle ≠ 0 then pointRotate p (degreesToRadians o.angle) point else p

/-- Center of the object relative to its parent
(`ObjectOrigin.getRelativeCenterPoint`). -/
def getRelativeCenterPoint (o : FabObject) : XY ℝ :=
  translateToCenterPoint o ⟨o.left, o.top⟩ o.originX o.originY

/-- Stroke-capture session state of `PencilBrush`: the captured points,
the straight-line modifier flag and the straight-line marker.  Pointer
coordinates are embedded as exact rationals (the capture code is pure
arithmetic). -/
structure PencilState where
  points : List (XY ℚ)
  drawStraightLine : Bool
  hasStraightLine : Bool
  deriving DecidableEq, Repr

/-- Add a point to the captured sequence (`PencilBrush._addPoint`): the
duplicate check compares with the last captured point but only fires when
more than one point has been captured; with the straight-line modifier and
more than one point, the previous point is popped before the push.
`Point#eq` is componentwise equality. -/
def addPoint (st : PencilState) (point : XY ℚ) : Bool × PencilState :=
  if 1 < st.points.length ∧ st.points.getLast? = some point then
    (false, st)
  else
    let st1 :=
      if st.drawStraightLine ∧ 1 < st.points.length then
        { st with hasStraightLine := true, points := st.points.dropLast }
      else st
    (true, { st1 with points := st1.points ++ [point] })

/-- The distance-threshold loop body of `decimatePoints`: keep a point
once its squared distance from the last kept point reaches the adjusted
threshold. -/
def decimateAux (adjustedDistance : ℚ) : XY ℚ → List (XY ℚ) → List (XY ℚ)
  | _, [] => []
  | lastPoint, p :: rest =>
    if (lastPoint.x - p.x) ^ 2 + (lastPoint.y - p.y) ^ 2 ≥ adjustedDistance
    then p :: decimateAux adjustedDistance p rest
    else decimateAux adjustedDistance lastPoint rest

/-- Decimate a captured point sequence (`PencilBrush.decimatePoints`).
Lists of length ≤ 2 are returned unchanged.  Otherwise the source's loop
`for i = 1; i < l - 1` with `l = length - 1` examines exactly the points
at indices `1 … length - 3` (the second-to-last point is never examined),
i.e. `take rest.length` of the tail, and the final point is appended
unconditionally.  The zoom divisor comes from the canvas and is taken as a
parameter. -/
def decimatePoints (points : List (XY ℚ)) (distance : ℚ) (zoom : ℚ) :
    List (XY ℚ) :=
  match points with
  | p0 :: p1 :: p2 :: rest =>
    let adjustedDistance := (distance / zoom) ^ 2
    p0 :: (decimateAux adjustedDistance p0
        ((p1 :: p2 :: rest).take rest.length) ++
      [(p2 :: rest).getLast (List.cons_ne_nil _ _)])
  | _ => points

/-- The four absolute corners (`TCornerPoint`). -/
@[ext]
structure TCornerPoint where
  tl : XY ℝ
  tr : XY ℝ
  bl : XY ℝ
  br : XY ℝ

/-- Value of the `erasable` property: `false`, `true`, or the string
`'deep'`. -/
inductive EMode
  | no
  | yes
  | deep
  deriving DecidableEq, Repr

/-- Clip-path object as the eraser manipulates it: its own transform
matrix (`calcTransformMatrix` is abstracted to the stored matrix, since
`applyTransformToObject` rewrites the object's properties so that its
transform matrix equals the given one) and the `absolutePositioned`
flag. -/
structure Clip where
  matrix : TMat2D
  absolutePositioned : Bool

/-- Erase-path object: its transform matrix (same abstraction as `Clip`)
and its clip-path stack.  `mergeClipPaths` is an opaque external
composition, so the merge `mergeClipPaths(c, existing)` is embedded as
`c :: existing` and the absent clip path as `[]`. -/
structure EPath where
  matrix : TMat2D
  clip : List Clip

/-- Scene-object fields read or written by the eraser mixin. -/
structure FCore where
  erasable : EMode
  visible : Bool
  dirty : Bool
  eraser : Option (List EPath)
  matrix : TMat2D
  isCollection : Bool
  clipPath : Option Clip

mutual
/-- Scene object: its eraser-relevant fields plus children (nonempty only
for collections). -/
inductive FObj
  | mk (core : FCore) (children : FList)

/-- List of scene objects (as a mutual inductive so that structural
recursion and induction над the tree are available). -/
inductive FList
  | nil
  | cons (head : FObj) (tail : FList)
end

/-- Field accessor. -/
def FObj.core : FObj → FCore
  | .mk c _ => c

/-- Field accessor. -/
def FObj.children : FObj → FList
  | .mk _ ch => ch

/-- Predicate `EraserBrush._isErasable`: `object.erasable !== false`. -/
def isErasable (o : FObj) : Bool :=
  decide (o.core.erasable ≠ EMode.no)

/-- Helper `EraserBrush.applyClipPathToPath`: re-express a clip path in the
path's frame (`pathInvTransform`, composed with the container matrix
unless the clip is absolutely positioned), clear its
`absolutePositioned` flag, and merge it onto the path's clip stack. -/
def applyClipPathToPath (path : EPath) (clipPath : Clip)
    (clipPathContainerTransformMatrix : TMat2D) : EPath :=
  let pathInvTransform := invertTransform path.matrix
  let transform :=
    if clipPath.absolutePositioned then pathInvTransform
    else multiplyTransformMatrices pathInvTransform
      clipPathContainerTransformMatrix false
  { path with clip :=
      (⟨multiplyTransformMatrices transform clipPath.matrix false, false⟩ : Clip)
        :: path.clip }

/-- Does the children list contain an erasable (truthy `erasable`)
object?  (`targets.length > 0` for the source's filtered targets.) -/
def FList.anyErasable : FList → Bool
  | .nil => false
  | .cons o rest => (decide (o.core.erasable ≠ EMode.no)) || rest.anyErasable

mutual
/-- Attachment `EraserBrush._addPathToObjectEraser`.  A deep-erasable collection
recurses into its erasable children, after re-expressing the path in the
collection's clip path frame when one is present (`clonePathWithClipPath`
/ `applyClipPathToPath`); a collection without erasable children is left
untouched.  Every other target lazily gets an empty eraser, and a clone
of the path, transformed by `invert(target matrix) · path matrix`, is
appended to it; the target's dirty flag is set.  The asynchronous clone
chain is embedded as a pure transformation. -/
def addPathToObjectEraser : FObj → EPath → FObj
  | .mk core children, path =>
    if core.isCollection = true ∧ core.erasable = EMode.deep then
      if children.anyErasable = true then
        match core.clipPath with
        | some clipPath =>
          FObj.mk core (addPathToChildren children
            (applyClipPathToPath path clipPath core.matrix))
        | none => FObj.mk core (addPathToChildren children path)
      else FObj.mk core children
    else
      let eraser := core.eraser.getD []
      let desiredTransform := multiplyTransformMatrices
        (invertTransform core.matrix) path.matrix false
      FObj.mk
        { core with
          eraser := some (eraser ++ [{ path with matrix := desiredTransform }]),
          dirty := true }
        children

/-- Recursion of `_addPathToObjectEraser` over the erasable children (the
source filters `targets` and maps over them; other children are left in
place). -/
def addPathToChildren : FList → EPath → FList
  | .nil, _ => .nil
  | .cons o rest, path =>
    .cons (if o.core.erasable ≠ EMode.no then addPathToObjectEraser o path else o)
      (addPathToChildren rest path)
end

/-- Address of an object inside the scene forest: a path of child
indices.  The source's restoration context stores object references; the
pure embedding stores addresses instead. -/
abbrev Addr := List ℕ

/-- The restoration context of `preparePattern`: objects whose visibility
was cleared, objects whose eraser was detached (with the detached value),
and collections that were marked dirty. -/
structure RestorationContext where
  visibility : List Addr
  eraserSaved : List (Addr × List EPath)
  collection : List Addr

/-- Concatenation of restoration contexts. -/
def ctxAppend (c1 c2 : RestorationContext) : RestorationContext :=
  ⟨c1.visibility ++ c2.visibility, c1.eraserSaved ++ c2.eraserSaved,
   c1.collection ++ c2.collection⟩

/-- Apply an address transformation to every entry of a context. -/
def ctxMapAddr (f : Addr → Addr) (c : RestorationContext) : RestorationContext :=
  ⟨c.visibility.map f, c.eraserSaved.map (fun p => (f p.1, p.2)),
   c.collection.map f⟩

/-- Prefix an address with a child index. -/
def consAddr (i : ℕ) (a : Addr) : Addr := i :: a

/-- Shift the leading index of an address by one. -/
def shiftAddr : Addr → Addr
  | [] => []
  | i :: rest => (i + 1) :: rest

mutual
/-- Traversal `EraserBrush._prepareCollectionTraversal`, object case.  A
deep-erasable collection recurses into its children and becomes dirty
when any of them was temporarily mutated (each such child also records
the collection in the context); in normal mode an erasable visible
object is hidden; in inverted mode an erasable visible object with an
eraser has it detached and is marked dirty.  The returned flag tells the
parent collection whether this object was mutated.  Addresses in the
returned context are relative to this object (`[]` is the object
itself). -/
def prepObj (inverted : Bool) : FObj → FObj × RestorationContext × Bool
  | .mk core children =>
    if core.isCollection = true ∧ core.erasable = EMode.deep then
      let r := prepList inverted children
      (FObj.mk { core with dirty := if 0 < r.2.2 then true else core.dirty } r.1,
       ctxAppend r.2.1 ⟨[], [], List.replicate r.2.2 []⟩, false)
    else if inverted = false ∧ core.erasable ≠ EMode.no ∧ core.visible = true then
      (FObj.mk { core with visible := false } children, ⟨[[]], [], []⟩, true)
    else
      match core.eraser with
      | some ev =>
        if inverted = true ∧ core.erasable ≠ EMode.no ∧ core.visible = true then
          (FObj.mk { core with eraser := none, dirty := true } children,
           ⟨[], [([], ev)], []⟩, true)
        else (FObj.mk core children, ⟨[], [], []⟩, false)
      | none => (FObj.mk core children, ⟨[], [], []⟩, false)

/-- Traversal `EraserBrush._prepareCollectionTraversal`, iteration over a list of
objects; returns the transformed list, the accumulated context with
addresses relative to the list, and the number of flagged children (the
parent records itself once per flagged child). -/
def prepList (inverted : Bool) : FList → FList × RestorationContext × ℕ
  | .nil => (.nil, ⟨[], [], []⟩, 0)
  | .cons o rest =>
    let ro := prepObj inverted o
    let rr := prepList inverted rest
    (.cons ro.1 rr.1,
     ctxAppend (ctxMapAddr (consAddr 0) ro.2.1) (ctxMapAddr shiftAddr rr.2.1),
     (if ro.2.2 then 1 else 0) + rr.2.2)
end

/-- Restoration action for hidden objects: `obj.visible = true`. -/
def restoreVisible : FObj → FObj
  | .mk c ch => .mk { c with visible := true } ch

/-- Restoration action for detached erasers: `obj.eraser = eraser;
obj.dirty = true`. -/
def restoreEraser (ev : List EPath) : FObj → FObj
  | .mk c ch => .mk { c with eraser := some ev, dirty := true } ch

/-- Restoration action for recorded collections: `obj.dirty = true`. -/
def markDirty : FObj → FObj
  | .mk c ch => .mk { c with dirty := true } ch

/-- Apply a function to the object at one index of a list. -/
def FList.modifyAt : FList → ℕ → (FObj → FObj) → FList
  | .nil, _, _ => .nil
  | .cons o rest, 0, f => .cons (f o) rest
  | .cons o rest, n + 1, f => .cons o (rest.modifyAt n f)

/-- Apply a function at an address inside an object (`[]` is the object
itself). -/
def updateObjAt : Addr → (FObj → FObj) → FObj → FObj
  | [], f, o => f o
  | i :: rest, f, .mk c ch => .mk c (ch.modifyAt i (updateObjAt rest f))

/-- Apply a function at an address inside a forest. -/
def updateForestAt (addr : Addr) (f : FObj → FObj) (l : FList) : FList :=
  match addr with
  | [] => l
  | i :: rest => l.modifyAt i (updateObjAt rest f)

/-- Replay a restoration context on the scene forest, in the source's
phase order: visibility first, then erasers, then collection dirty
flags. -/
def applyRestoration (ctx : RestorationContext) (objects : FList) : FList :=
  let v := ctx.visibility.foldl
    (fun acc a => updateForestAt a restoreVisible acc) objects
  let e := ctx.eraserSaved.foldl
    (fun acc p => updateForestAt p.1 (restoreEraser p.2) acc) v
  ctx.collection.foldl (fun acc a => updateForestAt a markDirty acc) e

/-- Replay a restoration context inside a single object (addresses
relative to the object). -/
def applyRestorationObj (ctx : RestorationContext) (o : FObj) : FObj :=
  let v := ctx.visibility.foldl
    (fun acc a => updateObjAt a restoreVisible acc) o
  let e := ctx.eraserSaved.foldl
    (fun acc p => updateObjAt p.1 (restoreEraser p.2) acc) v
  ctx.collection.foldl (fun acc a => updateObjAt a markDirty acc) e

/-- Scene-graph state the eraser reads and writes on the canvas. -/
structure CanvasState where
  objects : FList
  backgroundImage : Option FObj
  overlayImage : Option FObj
  backgroundColor : Bool
  overlayColor : Bool

/-- Pattern preparation `EraserBrush.preparePattern`, restricted to its effect on the scene
state (the drawing calls render to the off-screen pattern surface and
touch none of the embedded fields).  Background section, traversal with
restoration, overlay section, exactly in the source's order; the
temporary background/overlay image detachments and eraser detachments
are written literally as detach-then-restore. -/
def preparePattern (inverted : Bool) (st : CanvasState) : CanvasState :=
  let backgroundImage := st.backgroundImage
  let bgErasable := match backgroundImage with
    | some bg => isErasable bg
    | none => false
  let st1 :=
    if inverted = false ∧
        ((backgroundImage.isSome = true ∧ bgErasable = false) ∨
          st.backgroundColor = true) then
      let stA := if bgErasable = true then { st with backgroundImage := none }
        else st
      if bgErasable = true then { stA with backgroundImage := backgroundImage }
      else stA
    else if inverted = true then
      match backgroundImage with
      | some bg =>
        match bg.core.eraser with
        | some ev =>
          let bg1 := match bg with
            | .mk c ch => FObj.mk { c with eraser := none, dirty := true } ch
          let bg2 := match bg1 with
            | .mk c ch => FObj.mk { c with eraser := some ev, dirty := true } ch
          { st with backgroundImage := some bg2 }
        | none => st
      | none => st
    else st
  let r := prepList inverted st1.objects
  let st2 := { st1 with objects := applyRestoration r.2.1 r.1 }
  let overlayImage := st2.overlayImage
  let ovErasable := match overlayImage with
    | some ov => isErasable ov
    | none => false
  if inverted = false ∧
      ((overlayImage.isSome = true ∧ ovErasable = false) ∨
        st2.overlayColor = true) then
    let stA := if ovErasable = true then { st2 with overlayImage := none }
      else st2
    if ovErasable = true then { stA with overlayImage := overlayImage }
    else stA
  else if inverted = true then
    match overlayImage with
    | some ov =>
      match ov.core.eraser with
      | some ev =>
        let ov1 := match ov with
          | .mk c ch => FObj.mk { c with eraser := none, dirty := true } ch
        let ov2 := match ov1 with
          | .mk c ch => FObj.mk { c with eraser := some ev, dirty := true } ch
        { st2 with overlayImage := some ov2 }
      | none => st2
    | none => st2
  else st2

mutual
/-- Projection clearing every dirty flag in an object (the only field
`preparePattern` may leave changed). -/
def scrubObj : FObj → FObj
  | .mk c ch => .mk { c with dirty := false } (scrubList ch)

/-- Projection clearing every dirty flag in a forest. -/
def scrubList : FList → FList
  | .nil => .nil
  | .cons o rest => .cons (scrubObj o) (scrubList rest)
end

/-- SVG path command as produced by the smoothing conversion.  The
source compares `joinPath(pathData)` with the literal string
`M 0 0 Q 0 0 0 0 L 0 0`; over exact rationals a command list joins to
that string exactly when it equals the corresponding command list, so
the check is embedded structurally. -/
inductive PathCmd
  | M (x y : ℚ)
  | Q (cx cy x y : ℚ)
  | L (x y : ℚ)
  deriving DecidableEq, Repr

/-- Empty-path check `isEmptySVGPath` / `_isEmptySVGPath`. -/
def isEmptySVGPath (pathData : List PathCmd) : Bool :=
  decide (pathData = [PathCmd.M 0 0, PathCmd.Q 0 0 0 0, PathCmd.L 0 0])

/-- The quadratic-segment loop of `getSmoothPathFromPoints`: for each
consecutive pair of distinct points, a quadratic through the first point
ending at their midpoint. -/
def getSmoothPathSegments : XY ℚ → List (XY ℚ) → List PathCmd
  | _, [] => []
  | p1, p2 :: rest =>
    (if p1 = p2 then []
     else [PathCmd.Q p1.x p1.y ((p1.x + p2.x) / 2) ((p1.y + p2.y) / 2)]) ++
      getSmoothPathSegments p2 rest

/-- Modelled from the spec: `getSmoothPathFromPoints` (util/path, not
among the analysed sources): successive-midpoint quadratic segments with
a width-dependent endpoint correction whose sign is taken from the
direction of the third point (1/0 when there are only two points); the
lists the eraser converts always have at least two points, and shorter
lists yield the empty command list. -/
def getSmoothPathFromPoints (points : List (XY ℚ)) (correction : ℚ) :
    List PathCmd :=
  match points with
  | p1 :: p2 :: rest =>
    let multSignX : ℚ :=
      match rest with
      | p3 :: _ => if p3.x < p2.x then -1 else if p3.x = p2.x then 0 else 1
      | [] => 1
    let multSignY : ℚ :=
      match rest with
      | p3 :: _ => if p3.y < p2.y then -1 else if p3.y = p2.y then 0 else 1
      | [] => 0
    let lastP := (p2 :: rest).getLast (List.cons_ne_nil _ _)
    PathCmd.M (p1.x - multSignX * correction) (p1.y - multSignY * correction) ::
      (getSmoothPathSegments p1 (p2 :: rest) ++
        [PathCmd.L (lastP.x + multSignX * correction)
          (lastP.y + multSignY * correction)])
  | _ => []

/-- Conversion `PencilBrush.convertPointsToSVGPath`: smoothing with correction
`width / 1000`. -/
def convertPointsToSVGPath (width : ℚ) (points : List (XY ℚ)) :
    List PathCmd :=
  getSmoothPathFromPoints points (width / 1000)

/-- Calls the eraser's finalization issues to the canvas, in order. -/
inductive ECall
  | closePath
  | clearContext
  | fireErasingEnd
  | fireBeforePathCreated
  | firePathCreated
  | requestRenderAll
  | resetShadow
  deriving DecidableEq, Repr

/-- Brush state read by `EraserBrush._finalizeAndAddPath`; the canvas
zoom divisor used by decimation is a field here since the canvas is
external. -/
structure EraserBrushState where
  points : List (XY ℚ)
  decimate : ℚ
  width : ℚ
  zoom : ℚ
  isErasing : Bool

/-- Result of one finalization: the canvas calls issued in order, the
created path (if any), the updated scene objects and drawables, and the
updated brush state. -/
structure FinalizeResult where
  calls : List ECall
  createdPath : Option EPath
  objects : FList
  backgroundImage : Option FObj
  overlayImage : Option FObj
  state : EraserBrushState

/-- Drawable handling `EraserBrush.applyEraserToCanvas` for one drawable: attach the path
when the drawable exists and is erasable. -/
def applyEraserToCanvas (drawable : Option FObj) (path : EPath) :
    Option FObj :=
  match drawable with
  | some d => if isErasable d then some (addPathToObjectEraser d path) else some d
  | none => none

/-- The attachment fan-out of `_finalizeAndAddPath` over the canvas
objects: each erasable object whose polygon intersects the path receives
the path.  The intersection test lives in the external geometry engine
and is a parameter. -/
def eraseIntersected (objects : FList) (path : EPath)
    (intersects : FObj → EPath → Bool) : FList :=
  match objects with
  | .nil => .nil
  | .cons o rest =>
    .cons (if isErasable o = true ∧ intersects o path = true
           then addPathToObjectEraser o path else o)
      (eraseIntersected rest path intersects)

/-- Finalization `EraserBrush._finalizeAndAddPath`: close the top context, decimate
when the decimate threshold is truthy, clear the top context, leave
erasing mode; when fewer than 2 points remain or the conversion is the
empty SVG path, fire `erasing:end`, request a re-render and stop;
otherwise create the path (path construction is external — parameter
`mkPath`), fire `before:path:created`, attach the path to every
intersected erasable object and to the erasable drawables, fire
`erasing:end`, request a re-render, reset the shadow and fire
`path:created`. -/
def finalizeAndAddPath (st : EraserBrushState) (objects : FList)
    (backgroundImage overlayImage : Option FObj)
    (intersects : FObj → EPath → Bool) (mkPath : List PathCmd → EPath) :
    FinalizeResult :=
  let points := if st.decimate ≠ 0 then
      decimatePoints st.points st.decimate st.zoom
    else st.points
  let st1 := { st with points := points, isErasing := false }
  let pathData : Option (List PathCmd) :=
    if 1 < points.length then some (convertPointsToSVGPath st.width points)
    else none
  match pathData with
  | none =>
    ⟨[ECall.closePath, ECall.clearContext, ECall.fireErasingEnd,
      ECall.requestRenderAll], none, objects, backgroundImage, overlayImage, st1⟩
  | some pd =>
    if isEmptySVGPath pd then
      ⟨[ECall.closePath, ECall.clearContext, ECall.fireErasingEnd,
        ECall.requestRenderAll], none, objects, backgroundImage, overlayImage,
       st1⟩
    else
      let path := mkPath pd
      ⟨[ECall.closePath, ECall.clearContext, ECall.fireBeforePathCreated,
        ECall.fireErasingEnd, ECall.requestRenderAll, ECall.resetShadow,
        ECall.firePathCreated],
       some path, eraseIntersected objects path intersects,
       applyEraserToCanvas backgroundImage path,
       applyEraserToCanvas overlayImage path, st1⟩

/-- Absolute corner coordinates of the object's bounding box
(`ObjectGeometry.calcACoords`): the scale/skew-absorbed half-dimensions
mapped through `translate(center) · rotate(angle)`. -/
def calcACoords (o : FabObject) : TCornerPoint :=
  let rotateMatrix := createRotateMatrix o.angle ⟨0, 0⟩
  let center := getRelativeCenterPoint o
  let tMatrix := createTranslateMatrix center.x center.y
  let finalMatrix := multiplyTransformMatrices tMatrix rotateMatrix false
  let dim := getTransformedDimensions o {}
  let w := dim.x / 2
  let h := dim.y / 2
  ⟨transformPoint ⟨-w, -h⟩ finalMatrix false,
   transformPoint ⟨w, -h⟩ finalMatrix false,
   transformPoint ⟨-w, h⟩ finalMatrix false,
   transformPoint ⟨w, h⟩ finalMatrix false⟩

end

theorem degreesToRadians_zero : degreesToRadians 0 = 0 := by
  simp [degreesToRadians]

theorem radiansToDegrees_degreesToRadians (x : ℝ) :
    radiansToDegrees (degreesToRadians x) = x := by
  unfold radiansToDegrees degreesToRadians
  field_simp
  ring

theorem degreesToRadians_radiansToDegrees (x : ℝ) :
    degreesToRadians (radiansToDegrees x) = x := by
  unfold radiansToDegrees degreesToRadians
  field_simp

/-- The `atan2` of a vector written in polar form recovers the angle when
the radius is positive and the angle lies in `(-π, π]`. -/
theorem atan2_rotation {r θ : ℝ} (hr : 0 < r)
    (hθ : θ ∈ Set.Ioc (-Real.pi) Real.pi) :
    atan2 (r * Real.sin θ) (r * Real.cos θ) = θ := by
  have hz : (⟨r * Real.cos θ, r * Real.sin θ⟩ : ℂ) =
      (r : ℂ) * (Complex.cos θ + Complex.sin θ * Complex.I) := by
    apply Complex.ext <;>
      simp [Complex.mul_re, Complex.mul_im, ← Complex.ofReal_cos,
        ← Complex.ofReal_sin]
  unfold atan2
  rw [hz]
  exact Complex.arg_mul_cos_add_sin_mul_I hr hθ

/-- The `atan2` of `(s², s²·tan φ)` recovers `φ` when `s ≠ 0` and `φ` lies
in `(-π/2, π/2)`. -/
theorem atan2_tan {s φ : ℝ} (hs : s ≠ 0)
    (hφ : φ ∈ Set.Ioo (-(Real.pi / 2)) (Real.pi / 2)) :
    atan2 (s ^ 2 * Real.tan φ) (s ^ 2) = φ := by
  have hs2 : 0 < s ^ 2 := lt_of_le_of_ne (sq_nonneg s) (Ne.symm (pow_ne_zero 2 hs))
  have hcos : 0 < Real.cos φ := Real.cos_pos_of_mem_Ioo hφ
  have hr : 0 < s ^ 2 / Real.cos φ := div_pos hs2 hcos
  have h1 : s ^ 2 / Real.cos φ * Real.cos φ = s ^ 2 := by field_simp
  have h2 : s ^ 2 / Real.cos φ * Real.sin φ = s ^ 2 * Real.tan φ := by
    rw [Real.tan_eq_sin_div_cos]
    field_simp
  have hθ : φ ∈ Set.Ioc (-Real.pi) Real.pi := by
    have hp := Real.pi_pos
    constructor
    · linarith [hφ.1]
    · linarith [hφ.2]
  have h := atan2_rotation hr hθ
  rw [h2, h1] at h
  exact h

theorem d2r_mem_Ioc {x : ℝ} (h : x ∈ Set.Ioc (-180 : ℝ) 180) :
    degreesToRadians x ∈ Set.Ioc (-Real.pi) Real.pi := by
  unfold degreesToRadians
  constructor
  · have h1 : 0 < (x + 180) * (Real.pi / 180) :=
      mul_pos (by linarith [h.1]) (by positivity)
    nlinarith [h1]
  · have h2 : 0 ≤ (180 - x) * (Real.pi / 180) :=
      mul_nonneg (by linarith [h.2]) (by positivity)
    nlinarith [h2]

theorem d2r_mem_Ioo {x : ℝ} (h : x ∈ Set.Ioo (-90 : ℝ) 90) :
    degreesToRadians x ∈ Set.Ioo (-(Real.pi / 2)) (Real.pi / 2) := by
  unfold degreesToRadians
  constructor
  · have h1 : 0 < (x + 90) * (Real.pi / 180) :=
      mul_pos (by linarith [h.1]) (by positivity)
    nlinarith [h1]
  · have h2 : 0 < (90 - x) * (Real.pi / 180) :=
      mul_pos (by linarith [h.2]) (by positivity)
    nlinarith [h2]

/-- Closed form of the entries of `calcDimensionsMatrix` in the flip-free,
`skewY = 0` case. -/
theorem calcDimensionsMatrix_entries (args : TScaleMatrixArgs)
    (hfx : args.flipX = false) (hfy : args.flipY = false)
    (hky : args.skewY = 0) :
    calcDimensionsMatrix args =
      ⟨args.scaleX, 0, args.scaleX * Real.tan (degreesToRadians args.skewX),
       args.scaleY, 0, 0⟩ := by
  obtain ⟨sx, sy, fx, fy, kx, ky⟩ := args
  simp only [] at hfx hfy hky
  subst hfx hfy hky
  by_cases hk : kx = 0
  · subst hk
    simp [calcDimensionsMatrix, multiplyTransformMatrixArray,
      multiplyTransformMatrices, createScaleMatrix, createSkewXMatrix,
      angleToSkew, degreesToRadians_zero, iMatrix]
  · ext <;>
      simp [calcDimensionsMatrix, multiplyTransformMatrixArray,
        multiplyTransformMatrices, createScaleMatrix, createSkewXMatrix,
        angleToSkew, iMatrix, hk] <;>
      try ring

/-- Closed form of the entries of `composeMatrix` in the flip-free,
`skewY = 0` case (the case the decomposition can round-trip). -/
theorem composeMatrix_entries (o : TComposeMatrixArgs) (hky : o.skewY = 0)
    (hfx : o.flipX = false) (hfy : o.flipY = false) :
    composeMatrix o =
      ⟨o.scaleX * Real.cos (degreesToRadians o.angle),
       o.scaleX * Real.sin (degreesToRadians o.angle),
       o.scaleX * Real.tan (degreesToRadians o.skewX) *
           Real.cos (degreesToRadians o.angle) -
         o.scaleY * Real.sin (degreesToRadians o.angle),
       o.scaleX * Real.tan (degreesToRadians o.skewX) *
           Real.sin (degreesToRadians o.angle) +
         o.scaleY * Real.cos (degreesToRadians o.angle),
       o.translateX, o.translateY⟩ := by
  have hdim := calcDimensionsMatrix_entries
    ⟨o.scaleX, o.scaleY, o.flipX, o.flipY, o.skewX, o.skewY⟩ hfx hfy hky
  obtain ⟨tx, ty, ang, sx, sy, fx, fy, kx, ky⟩ := o
  simp only [] at hdim hky hfx hfy
  subst hky hfx hfy
  by_cases hang : ang = 0
  · subst hang
    ext <;>
      simp [composeMatrix, multiplyTransformMatrixArray, hdim,
        multiplyTransformMatrices, createTranslateMatrix, iMatrix,
        degreesToRadians_zero] <;>
      try ring
  · ext <;>
      simp [composeMatrix, multiplyTransformMatrixArray, hdim, hang,
        multiplyTransformMatrices, createTranslateMatrix, createRotateMatrix,
        iMatrix] <;>
      try ring

/-- Closed form of the entries of `invertTransform`. -/
theorem invertTransform_entries (t : TMat2D) :
    invertTransform t =
      ⟨t.d / (t.a * t.d - t.b * t.c), -t.b / (t.a * t.d - t.b * t.c),
       -t.c / (t.a * t.d - t.b * t.c), t.a / (t.a * t.d - t.b * t.c),
       (t.c * t.f - t.d * t.e) / (t.a * t.d - t.b * t.c),
       (t.b * t.e - t.a * t.f) / (t.a * t.d - t.b * t.c)⟩ := by
  obtain ⟨a, b, c, d, e, f⟩ := t
  simp only [invertTransform, transformPoint]
  ext <;> simp only [ite_self] <;> ring

/-- Claim C2: for every 2x3 affine matrix whose determinant `a*d - b*c` is
nonzero, `multiplyTransformMatrices M (invertTransform M)` is the identity
matrix and `invertTransform (invertTransform M) = M` — exactly, over the
idealised real-number semantics (the claim's floating-point tolerance
collapses to equality). -/
theorem C2_inverse_identity (t : TMat2D) (h : t.a * t.d - t.b * t.c ≠ 0) :
    multiplyTransformMatrices t (invertTransform t) false = iMatrix ∧
      invertTransform (invertTransform t) = t := by
  have h1 := invertTransform_entries t
  obtain ⟨a, b, c, d, e, f⟩ := t
  simp only [] at h h1 ⊢
  rw [h1]
  constructor
  · ext <;> simp only [multiplyTransformMatrices, iMatrix] <;> field_simp <;>
      first
      | ring
      | tauto
  · rw [invertTransform_entries]
    simp only []
    have key : d / (a * d - b * c) * (a / (a * d - b * c)) -
        -b / (a * d - b * c) * (-c / (a * d - b * c)) = 1 / (a * d - b * c) := by
      field_simp
      try ring
      try tauto
    rw [key]
    ext <;> simp only [] <;> field_simp <;>
      first
      | ring
      | tauto

/-- Claim C1 (amended): the compose/decompose round-trip, restricted to the
component records the decomposition convention can represent.  (i) For
components with no flip, `skewY = 0`, positive `scaleX`, angle in
`(-180°, 180°]` and `skewX` in `(-90°, 90°)`, `qrDecompose ∘ composeMatrix`
recovers angle, scaleX, scaleY and skewX exactly (over the idealised real
semantics, so the claim's `1e-9` tolerance collapses to equality);
(ii) `qrDecompose` returns `skewY = 0` for every input matrix;
(iii) `composeMatrix ∘ qrDecompose` reproduces every invertible matrix
exactly. -/
theorem C1_round_trip_amended :
    (∀ o : TComposeMatrixArgs, o.flipX = false → o.flipY = false →
      o.skewY = 0 → 0 < o.scaleX → o.angle ∈ Set.Ioc (-180 : ℝ) 180 →
      o.skewX ∈ Set.Ioo (-90 : ℝ) 90 →
      qrDecompose (composeMatrix o) =
        ⟨o.angle, o.scaleX, o.scaleY, o.skewX, 0, o.translateX, o.translateY⟩) ∧
    (∀ m : TMat2D, (qrDecompose m).skewY = 0) ∧
    (∀ m : TMat2D, m.a * m.d - m.b * m.c ≠ 0 →
      composeMatrix (toComposeArgs (qrDecompose m)) = m) := by
  refine ⟨?_, fun m => rfl, ?_⟩
  · intro o hfx hfy hky hsx hang hkx
    rw [composeMatrix_entries o hky hfx hfy]
    obtain ⟨tx, ty, ang, sx, sy, fx, fy, kx, ky⟩ := o
    simp only [] at hsx hang hkx ⊢
    have hθmem := d2r_mem_Ioc hang
    have hφmem := d2r_mem_Ioo hkx
    set θ := degreesToRadians ang with hθdef
    set φ := degreesToRadians kx with hφdef
    have hden : (sx * Real.cos θ) ^ 2 + (sx * Real.sin θ) ^ 2 = sx ^ 2 := by
      linear_combination sx ^ 2 * Real.sin_sq_add_cos_sq θ
    have hnum1 : sx * Real.cos θ *
          (sx * Real.tan φ * Real.sin θ + sy * Real.cos θ) -
        (sx * Real.tan φ * Real.cos θ - sy * Real.sin θ) * (sx * Real.sin θ) =
          sx * sy := by
      linear_combination sx * sy * Real.sin_sq_add_cos_sq θ
    have hnum2 : sx * Real.cos θ *
          (sx * Real.tan φ * Real.cos θ - sy * Real.sin θ) +
        sx * Real.sin θ * (sx * Real.tan φ * Real.sin θ + sy * Real.cos θ) =
          sx ^ 2 * Real.tan φ := by
      linear_combination sx ^ 2 * Real.tan φ * Real.sin_sq_add_cos_sq θ
    simp only [qrDecompose]
    rw [hden, hnum1, hnum2, Real.sqrt_sq hsx.le,
      atan2_rotation hsx hθmem, atan2_tan hsx.ne' hφmem, hθdef, hφdef,
      radiansToDegrees_degreesToRadians, radiansToDegrees_degreesToRadians,
      mul_div_cancel_left₀ _ hsx.ne']
    have htx : (if tx = 0 then (0 : ℝ) else tx) = tx := by
      split_ifs with h
      · exact h.symm
      · rfl
    have hty : (if ty = 0 then (0 : ℝ) else ty) = ty := by
      split_ifs with h
      · exact h.symm
      · rfl
    rw [htx, hty]
  · intro m hdet
    obtain ⟨a, b, c, d, e, f⟩ := m
    simp only [] at hdet
    have hab : ¬(a = 0 ∧ b = 0) := by
      rintro ⟨rfl, rfl⟩
      simp at hdet
    have hdenom : 0 < a ^ 2 + b ^ 2 := by
      rcases not_and_or.mp hab with h | h
      · have h1 : 0 < a ^ 2 :=
          lt_of_le_of_ne (sq_nonneg a) (Ne.symm (pow_ne_zero 2 h))
        nlinarith [sq_nonneg b]
      · have h1 : 0 < b ^ 2 :=
          lt_of_le_of_ne (sq_nonneg b) (Ne.symm (pow_ne_zero 2 h))
        nlinarith [sq_nonneg a]
    have hs : 0 < Real.sqrt (a ^ 2 + b ^ 2) := Real.sqrt_pos.mpr hdenom
    have hms : Real.sqrt (a ^ 2 + b ^ 2) * Real.sqrt (a ^ 2 + b ^ 2) =
        a ^ 2 + b ^ 2 := Real.mul_self_sqrt hdenom.le
    have hzne : (⟨a, b⟩ : ℂ) ≠ 0 := by
      simp only [ne_eq, Complex.ext_iff, Complex.zero_re, Complex.zero_im]
      tauto
    have habs : Complex.abs ⟨a, b⟩ = Real.sqrt (a ^ 2 + b ^ 2) := by
      rw [Complex.abs_apply, Complex.normSq_mk]
      congr 1
      ring
    have hcos : Real.cos (atan2 b a) = a / Real.sqrt (a ^ 2 + b ^ 2) := by
      unfold atan2
      rw [Complex.cos_arg hzne, habs]
    have hsin : Real.sin (atan2 b a) = b / Real.sqrt (a ^ 2 + b ^ 2) := by
      unfold atan2
      rw [Complex.sin_arg, habs]
    have htan : Real.tan (atan2 (a * c + b * d) (a ^ 2 + b ^ 2)) =
        (a * c + b * d) / (a ^ 2 + b ^ 2) := by
      unfold atan2
      rw [Complex.tan_arg]
    rw [composeMatrix_entries _ rfl rfl rfl]
    simp only [toComposeArgs, qrDecompose, degreesToRadians_radiansToDegrees]
    rw [hcos, hsin, htan]
    have he1 : Real.sqrt (a ^ 2 + b ^ 2) *
          ((a * c + b * d) / (a ^ 2 + b ^ 2)) *
          (a / Real.sqrt (a ^ 2 + b ^ 2)) =
        a * (a * c + b * d) / (a ^ 2 + b ^ 2) := by
      field_simp
      ring
    have he2 : Real.sqrt (a ^ 2 + b ^ 2) *
          ((a * c + b * d) / (a ^ 2 + b ^ 2)) *
          (b / Real.sqrt (a ^ 2 + b ^ 2)) =
        b * (a * c + b * d) / (a ^ 2 + b ^ 2) := by
      field_simp
      ring
    have he3 : (a * d - c * b) / Real.sqrt (a ^ 2 + b ^ 2) *
          (b / Real.sqrt (a ^ 2 + b ^ 2)) =
        b * (a * d - c * b) / (a ^ 2 + b ^ 2) := by
      rw [div_mul_div_comm, hms]
      ring
    have he4 : (a * d - c * b) / Real.sqrt (a ^ 2 + b ^ 2) *
          (a / Real.sqrt (a ^ 2 + b ^ 2)) =
        a * (a * d - c * b) / (a ^ 2 + b ^ 2) := by
      rw [div_mul_div_comm, hms]
      ring
    ext <;> simp only []
    · rw [mul_comm, div_mul_cancel₀ _ hs.ne']
    · rw [mul_comm, div_mul_cancel₀ _ hs.ne']
    · rw [he1, he3]
      field_simp
      ring
    · rw [he2, he4]
      field_simp
      ring
    · split_ifs with h
      · exact h.symm
      · rfl
    · split_ifs with h
      · exact h.symm
      · rfl

/-- Claim C1, counterexample: the claim quantifies over every component
record, but for `scaleX = -1` (all other components trivial) the recovered
`scaleX` is `1`, which is not within `1e-9` of `-1`. -/
theorem C1_counterexample :
    ¬(|(qrDecompose (composeMatrix
          ⟨0, 0, 0, -1, 1, false, false, 0, 0⟩)).scaleX - (-1 : ℝ)| ≤ 1e-9) := by
  have h1 : composeMatrix ⟨0, 0, 0, -1, 1, false, false, 0, 0⟩ =
      ⟨-1, 0, 0, 1, 0, 0⟩ := by
    rw [composeMatrix_entries _ rfl rfl rfl]
    ext <;> simp [degreesToRadians_zero]
  rw [h1]
  simp only [qrDecompose]
  rw [show (-1 : ℝ) ^ 2 + (0 : ℝ) ^ 2 = 1 by norm_num, Real.sqrt_one]
  norm_num

/-- Claim C1, witness: part (i) of the amended theorem applied at the
identity components and part (iii) applied at the concrete matrix
`[2, 1, 0, 3, 5, 7]` (determinant `6`). -/
theorem C1_round_trip_witness :
    ((0 : ℝ) < 1 ∧ (0 : ℝ) ∈ Set.Ioc (-180 : ℝ) 180 ∧
        (0 : ℝ) ∈ Set.Ioo (-90 : ℝ) 90 ∧
      qrDecompose (composeMatrix ⟨0, 0, 0, 1, 1, false, false, 0, 0⟩) =
        ⟨0, 1, 1, 0, 0, 0, 0⟩) ∧
    ((⟨2, 1, 0, 3, 5, 7⟩ : TMat2D).a * (⟨2, 1, 0, 3, 5, 7⟩ : TMat2D).d -
        (⟨2, 1, 0, 3, 5, 7⟩ : TMat2D).b * (⟨2, 1, 0, 3, 5, 7⟩ : TMat2D).c ≠ 0 ∧
      composeMatrix (toComposeArgs (qrDecompose ⟨2, 1, 0, 3, 5, 7⟩)) =
        ⟨2, 1, 0, 3, 5, 7⟩) :=
  ⟨⟨by norm_num, by norm_num, by norm_num,
      C1_round_trip_amended.1 ⟨0, 0, 0, 1, 1, false, false, 0, 0⟩ rfl rfl rfl
        (by norm_num) (by norm_num) (by norm_num)⟩,
    ⟨by norm_num,
      C1_round_trip_amended.2.2 ⟨2, 1, 0, 3, 5, 7⟩ (by norm_num)⟩⟩

/-- Claim C2, witness: the theorem applied at the concrete matrix
`[2, 0, 0, 3, 5, 7]`, whose determinant is `6`. -/
theorem C2_inverse_identity_witness :
    ((⟨2, 0, 0, 3, 5, 7⟩ : TMat2D).a * (⟨2, 0, 0, 3, 5, 7⟩ : TMat2D).d -
        (⟨2, 0, 0, 3, 5, 7⟩ : TMat2D).b * (⟨2, 0, 0, 3, 5, 7⟩ : TMat2D).c ≠ 0) ∧
      (multiplyTransformMatrices ⟨2, 0, 0, 3, 5, 7⟩
          (invertTransform ⟨2, 0, 0, 3, 5, 7⟩) false = iMatrix ∧
        invertTransform (invertTransform ⟨2, 0, 0, 3, 5, 7⟩) = ⟨2, 0, 0, 3, 5, 7⟩) :=
  ⟨by norm_num, C2_inverse_identity ⟨2, 0, 0, 3, 5, 7⟩ (by norm_num)⟩

/-- Claim C3 (amended): `createRotateMatrix` with a pivot whose
coordinates are both nonzero (or both zero) represents rotation about the
pivot: transforming any point through the returned matrix (offset applied)
gives the rotation of that point about the pivot, and in particular the
pivot itself is fixed.  The claim's inclusion of pivots with exactly one
zero coordinate is refuted by `C3_counterexample`: the source's
`x ? … : 0` / `y ? … : 0` guards zero out one translation entry there. -/
theorem C3_rotate_about_pivot_amended (angle : ℝ) (pivot : XY ℝ)
    (h : (pivot.x ≠ 0 ∧ pivot.y ≠ 0) ∨ (pivot.x = 0 ∧ pivot.y = 0)) :
    (∀ p : XY ℝ, transformPoint p (createRotateMatrix angle pivot) false =
      ⟨pivot.x + (Real.cos (degreesToRadians angle) * (p.x - pivot.x) -
         Real.sin (degreesToRadians angle) * (p.y - pivot.y)),
       pivot.y + (Real.sin (degreesToRadians angle) * (p.x - pivot.x) +
         Real.cos (degreesToRadians angle) * (p.y - pivot.y))⟩) ∧
    transformPoint pivot (createRotateMatrix angle pivot) false = pivot := by
  obtain ⟨px, py⟩ := pivot
  simp only [] at h
  have main : ∀ p : XY ℝ,
      transformPoint p (createRotateMatrix angle ⟨px, py⟩) false =
        ⟨px + (Real.cos (degreesToRadians angle) * (p.x - px) -
           Real.sin (degreesToRadians angle) * (p.y - py)),
         py + (Real.sin (degreesToRadians angle) * (p.x - px) +
           Real.cos (degreesToRadians angle) * (p.y - py))⟩ := by
    intro p
    rcases h with ⟨hx, hy⟩ | ⟨hx, hy⟩
    · simp only [transformPoint, createRotateMatrix, if_neg hx, if_neg hy]
      ext <;> simp <;> ring
    · subst hx hy
      simp only [transformPoint, createRotateMatrix, if_pos rfl]
      ext <;> simp <;> try ring
  refine ⟨main, ?_⟩
  rw [main ⟨px, py⟩]
  ext <;> simp only [] <;> ring

/-- Claim C3, counterexample: for angle `90°` about the pivot `(1, 0)` —
a pivot with exactly one zero coordinate, which the claim explicitly
includes — the pivot is not fixed by the returned matrix: it is mapped to
`(1, 1)`. -/
theorem C3_counterexample :
    transformPoint ⟨1, 0⟩ (createRotateMatrix 90 ⟨1, 0⟩) false ≠ ⟨1, 0⟩ := by
  have hdr : degreesToRadians 90 = Real.pi / 2 := by
    unfold degreesToRadians
    ring
  have hy : (transformPoint ⟨1, 0⟩ (createRotateMatrix 90 ⟨1, 0⟩) false).y = 1 := by
    simp [transformPoint, createRotateMatrix, hdr, Real.cos_pi_div_two,
      Real.sin_pi_div_two]
  intro hc
  rw [hc] at hy
  norm_num at hy

/-- Claim C3, witness: the amended theorem applied at angle `30°` and the
pivot `(2, 3)`, evaluated in particular at the pivot itself. -/
theorem C3_rotate_about_pivot_witness :
    (((2 : ℝ) ≠ 0 ∧ (3 : ℝ) ≠ 0) ∨ ((2 : ℝ) = 0 ∧ (3 : ℝ) = 0)) ∧
      transformPoint ⟨2, 3⟩ (createRotateMatrix 30 ⟨2, 3⟩) false = ⟨2, 3⟩ :=
  ⟨Or.inl ⟨by norm_num, by norm_num⟩,
    (C3_rotate_about_pivot_amended 30 ⟨2, 3⟩
      (Or.inl ⟨by norm_num, by norm_num⟩)).2⟩

/-- Claim C4 (amended): for an object with `angle = 0`, no skew, unit
scale, **zero stroke width**, width `W`, height `H` and center `(cx, cy)`,
`calcACoords` returns exactly the four axis-aligned corners around the
center.  The claim as stated omits the stroke width, which
`_getTransformedDimensions` folds into the dimensions; see
`C4_counterexample`. -/
theorem C4_corner_consistency_amended (o : FabObject) (cx cy : ℝ)
    (hang : o.angle = 0) (hkx : o.skewX = 0) (hky : o.skewY = 0)
    (hsx : o.scaleX = 1) (hsy : o.scaleY = 1) (hsw : o.strokeWidth = 0)
    (hc : getRelativeCenterPoint o = ⟨cx, cy⟩) :
    calcACoords o =
      ⟨⟨cx - o.width / 2, cy - o.height / 2⟩,
       ⟨cx + o.width / 2, cy - o.height / 2⟩,
       ⟨cx - o.width / 2, cy + o.height / 2⟩,
       ⟨cx + o.width / 2, cy + o.height / 2⟩⟩ := by
  have hdim : getTransformedDimensions o {} = ⟨o.width, o.height⟩ := by
    simp only [getTransformedDimensions, Option.getD_none, hkx, hky, hsw,
      hsx, hsy, ite_self]
    ext <;> simp <;> ring
  have hrot : createRotateMatrix o.angle ⟨0, 0⟩ = iMatrix := by
    rw [hang]
    ext <;> simp [createRotateMatrix, degreesToRadians_zero, iMatrix]
  simp only [calcACoords, hdim, hrot, hc]
  ext <;>
    simp [multiplyTransformMatrices, createTranslateMatrix, iMatrix,
      transformPoint] <;>
    ring

/-- Claim C4, counterexample: an otherwise plain object with the library's
default stroke width `1` (width `10`, height `6`, center `(3, 4)`): its
top-left absolute corner is `(3 - 11/2, 4 - 7/2)`, not the claimed
`(3 - 10/2, 4 - 6/2)`, because the stroke width is folded into the
transformed dimensions. -/
theorem C4_counterexample :
    getRelativeCenterPoint
        ⟨3, 4, 10, 6, 1, 1, 0, 0, 0, 1, false, .center, .center⟩ = ⟨3, 4⟩ ∧
      (calcACoords
          ⟨3, 4, 10, 6, 1, 1, 0, 0, 0, 1, false, .center, .center⟩).tl ≠
        ⟨3 - 10 / 2, 4 - 6 / 2⟩ := by
  constructor
  · simp [getRelativeCenterPoint, translateToCenterPoint,
      translateToGivenOrigin, resolveOriginX, resolveOriginY]
  · have htl : (calcACoords
        ⟨3, 4, 10, 6, 1, 1, 0, 0, 0, 1, false, .center, .center⟩).tl =
          ⟨3 - 11 / 2, 4 - 7 / 2⟩ := by
      have hdim : getTransformedDimensions
          ⟨3, 4, 10, 6, 1, 1, 0, 0, 0, 1, false, .center, .center⟩ {} =
            ⟨11, 7⟩ := by
        simp [getTransformedDimensions]
        norm_num
      have hrot : createRotateMatrix
          (FabObject.angle ⟨3, 4, 10, 6, 1, 1, 0, 0, 0, 1, false, .center, .center⟩)
            ⟨0, 0⟩ = iMatrix := by
        ext <;> simp [createRotateMatrix, degreesToRadians_zero, iMatrix]
      have hcen : getRelativeCenterPoint
          ⟨3, 4, 10, 6, 1, 1, 0, 0, 0, 1, false, .center, .center⟩ = ⟨3, 4⟩ := by
        simp [getRelativeCenterPoint, translateToCenterPoint,
          translateToGivenOrigin, resolveOriginX, resolveOriginY]
      simp only [calcACoords, hdim, hrot, hcen]
      ext <;>
        simp [multiplyTransformMatrices, createTranslateMatrix, iMatrix,
          transformPoint] <;>
        norm_num
    rw [htl]
    intro hc
    rw [XY.ext_iff] at hc
    norm_num at hc

/-- Claim C4, witness: the amended theorem applied at a concrete object of
width `10`, height `6`, zero stroke width and center `(3, 4)`. -/
theorem C4_corner_consistency_witness :
    getRelativeCenterPoint
        ⟨3, 4, 10, 6, 1, 1, 0, 0, 0, 0, false, .center, .center⟩ = ⟨3, 4⟩ ∧
      calcACoords ⟨3, 4, 10, 6, 1, 1, 0, 0, 0, 0, false, .center, .center⟩ =
        ⟨⟨3 - 10 / 2, 4 - 6 / 2⟩, ⟨3 + 10 / 2, 4 - 6 / 2⟩,
         ⟨3 - 10 / 2, 4 + 6 / 2⟩, ⟨3 + 10 / 2, 4 + 6 / 2⟩⟩ := by
  have hcen : getRelativeCenterPoint
      ⟨3, 4, 10, 6, 1, 1, 0, 0, 0, 0, false, .center, .center⟩ = ⟨3, 4⟩ := by
    simp [getRelativeCenterPoint, translateToCenterPoint,
      translateToGivenOrigin, resolveOriginX, resolveOriginY]
  exact ⟨hcen,
    C4_corner_consistency_amended
      ⟨3, 4, 10, 6, 1, 1, 0, 0, 0, 0, false, .center, .center⟩ 3 4
      rfl rfl rfl rfl rfl rfl hcen⟩

/-- The bounding-box fold is monotone: the result is below the initial
minimum and every list element, and above the initial maximum and every
list element, componentwise. -/
theorem bbFold_le {α : Type} [LinearOrder α] (l : List (XY α)) :
    ∀ init : XY α × XY α,
      (l.foldl bbStep init).1.x ≤ init.1.x ∧
      (l.foldl bbStep init).1.y ≤ init.1.y ∧
      init.2.x ≤ (l.foldl bbStep init).2.x ∧
      init.2.y ≤ (l.foldl bbStep init).2.y ∧
      ∀ q ∈ l, (l.foldl bbStep init).1.x ≤ q.x ∧
        (l.foldl bbStep init).1.y ≤ q.y ∧
        q.x ≤ (l.foldl bbStep init).2.x ∧
        q.y ≤ (l.foldl bbStep init).2.y := by
  induction l with
  | nil => intro init; simp
  | cons p ps ih =>
    intro init
    obtain ⟨h1, h2, h3, h4, h5⟩ := ih (bbStep init p)
    simp only [List.foldl_cons]
    refine ⟨le_trans h1 (min_le_left _ _), le_trans h2 (min_le_left _ _),
      le_trans (le_max_left _ _) h3, le_trans (le_max_left _ _) h4, ?_⟩
    intro q hq
    rcases List.mem_cons.mp hq with rfl | hq
    · exact ⟨le_trans h1 (min_le_right _ _), le_trans h2 (min_le_right _ _),
        le_trans (le_max_right _ _) h3, le_trans (le_max_right _ _) h4⟩
    · exact h5 q hq

/-- Each component of the bounding-box fold result is attained: it equals
the corresponding component of the initial pair or of some list element. -/
theorem bbFold_attained {α : Type} [LinearOrder α] (l : List (XY α)) :
    ∀ init : XY α × XY α,
      ((l.foldl bbStep init).1.x = init.1.x ∨
        ∃ q ∈ l, (l.foldl bbStep init).1.x = q.x) ∧
      ((l.foldl bbStep init).1.y = init.1.y ∨
        ∃ q ∈ l, (l.foldl bbStep init).1.y = q.y) ∧
      ((l.foldl bbStep init).2.x = init.2.x ∨
        ∃ q ∈ l, (l.foldl bbStep init).2.x = q.x) ∧
      ((l.foldl bbStep init).2.y = init.2.y ∨
        ∃ q ∈ l, (l.foldl bbStep init).2.y = q.y) := by
  induction l with
  | nil => intro init; simp
  | cons p ps ih =>
    intro init
    obtain ⟨h1, h2, h3, h4⟩ := ih (bbStep init p)
    simp only [List.foldl_cons]
    refine ⟨?_, ?_, ?_, ?_⟩
    · rcases h1 with h | ⟨q, hq, h⟩
      · rcases min_choice init.1.x p.x with hm | hm
        · exact Or.inl (h.trans hm)
        · exact Or.inr ⟨p, List.mem_cons_self _ _, h.trans hm⟩
      · exact Or.inr ⟨q, List.mem_cons_of_mem _ hq, h⟩
    · rcases h2 with h | ⟨q, hq, h⟩
      · rcases min_choice init.1.y p.y with hm | hm
        · exact Or.inl (h.trans hm)
        · exact Or.inr ⟨p, List.mem_cons_self _ _, h.trans hm⟩
      · exact Or.inr ⟨q, List.mem_cons_of_mem _ hq, h⟩
    · rcases h3 with h | ⟨q, hq, h⟩
      · rcases max_choice init.2.x p.x with hm | hm
        · exact Or.inl (h.trans hm)
        · exact Or.inr ⟨p, List.mem_cons_self _ _, h.trans hm⟩
      · exact Or.inr ⟨q, List.mem_cons_of_mem _ hq, h⟩
    · rcases h4 with h | ⟨q, hq, h⟩
      · rcases max_choice init.2.y p.y with hm | hm
        · exact Or.inl (h.trans hm)
        · exact Or.inr ⟨p, List.mem_cons_self _ _, h.trans hm⟩
      · exact Or.inr ⟨q, List.mem_cons_of_mem _ hq, h⟩

/-- On a nonempty list the fold components are attained at list members
(the initial pair is the head, which is itself a member), and bound every
member. -/
theorem bbFold_spec {α : Type} [LinearOrder α] (p : XY α) (ps : List (XY α)) :
    (∀ q ∈ p :: ps,
      ((p :: ps).foldl bbStep (p, p)).1.x ≤ q.x ∧
      ((p :: ps).foldl bbStep (p, p)).1.y ≤ q.y ∧
      q.x ≤ ((p :: ps).foldl bbStep (p, p)).2.x ∧
      q.y ≤ ((p :: ps).foldl bbStep (p, p)).2.y) ∧
    (∃ q ∈ p :: ps, ((p :: ps).foldl bbStep (p, p)).1.x = q.x) ∧
    (∃ q ∈ p :: ps, ((p :: ps).foldl bbStep (p, p)).1.y = q.y) ∧
    (∃ q ∈ p :: ps, ((p :: ps).foldl bbStep (p, p)).2.x = q.x) ∧
    (∃ q ∈ p :: ps, ((p :: ps).foldl bbStep (p, p)).2.y = q.y) := by
  obtain ⟨_, _, _, _, h5⟩ := bbFold_le (p :: ps) (p, p)
  obtain ⟨a1, a2, a3, a4⟩ := bbFold_attained (p :: ps) (p, p)
  refine ⟨h5, ?_, ?_, ?_, ?_⟩
  · rcases a1 with h | ⟨q, hq, h⟩
    · exact ⟨p, List.mem_cons_self _ _, h⟩
    · exact ⟨q, hq, h⟩
  · rcases a2 with h | ⟨q, hq, h⟩
    · exact ⟨p, List.mem_cons_self _ _, h⟩
    · exact ⟨q, hq, h⟩
  · rcases a3 with h | ⟨q, hq, h⟩
    · exact ⟨p, List.mem_cons_self _ _, h⟩
    · exact ⟨q, hq, h⟩
  · rcases a4 with h | ⟨q, hq, h⟩
    · exact ⟨p, List.mem_cons_self _ _, h⟩
    · exact ⟨q, hq, h⟩

/-- Unfolding of `makeBoundingBoxFromPoints` on a nonempty list. -/
theorem makeBoundingBoxFromPoints_cons {α : Type} [LinearOrderedField α]
    (p : XY α) (ps : List (XY α)) :
    makeBoundingBoxFromPoints (p :: ps) =
      ⟨((p :: ps).foldl bbStep (p, p)).1.x,
       ((p :: ps).foldl bbStep (p, p)).1.y,
       ((p :: ps).foldl bbStep (p, p)).2.x -
         ((p :: ps).foldl bbStep (p, p)).1.x,
       ((p :: ps).foldl bbStep (p, p)).2.y -
         ((p :: ps).foldl bbStep (p, p)).1.y⟩ := rfl

/-- Claim C10: `makeBoundingBoxFromPoints` maps the empty list to the zero
box; on a nonempty list, `left`/`top` are the minimal coordinates, the box
bounds every point, `left + width` and `top + height` are the maximal
coordinates (so width and height are the coordinate ranges), and the
result does not depend on the order of the points. -/
theorem C10_bounding_box {α : Type} [LinearOrderedField α] :
    (makeBoundingBoxFromPoints ([] : List (XY α)) = ⟨0, 0, 0, 0⟩) ∧
    (∀ (p : XY α) (ps : List (XY α)), ∀ q ∈ p :: ps,
      (makeBoundingBoxFromPoints (p :: ps)).left ≤ q.x ∧
      (makeBoundingBoxFromPoints (p :: ps)).top ≤ q.y ∧
      q.x ≤ (makeBoundingBoxFromPoints (p :: ps)).left +
        (makeBoundingBoxFromPoints (p :: ps)).width ∧
      q.y ≤ (makeBoundingBoxFromPoints (p :: ps)).top +
        (makeBoundingBoxFromPoints (p :: ps)).height) ∧
    (∀ (p : XY α) (ps : List (XY α)),
      (∃ q ∈ p :: ps, q.x = (makeBoundingBoxFromPoints (p :: ps)).left) ∧
      (∃ q ∈ p :: ps, q.y = (makeBoundingBoxFromPoints (p :: ps)).top) ∧
      (∃ q ∈ p :: ps, q.x = (makeBoundingBoxFromPoints (p :: ps)).left +
        (makeBoundingBoxFromPoints (p :: ps)).width) ∧
      (∃ q ∈ p :: ps, q.y = (makeBoundingBoxFromPoints (p :: ps)).top +
        (makeBoundingBoxFromPoints (p :: ps)).height)) ∧
    (∀ l₁ l₂ : List (XY α), l₁.Perm l₂ →
      makeBoundingBoxFromPoints l₁ = makeBoundingBoxFromPoints l₂) := by
  have hsum : ∀ (p : XY α) (ps : List (XY α)),
      (makeBoundingBoxFromPoints (p :: ps)).left +
        (makeBoundingBoxFromPoints (p :: ps)).width =
          ((p :: ps).foldl bbStep (p, p)).2.x ∧
      (makeBoundingBoxFromPoints (p :: ps)).top +
        (makeBoundingBoxFromPoints (p :: ps)).height =
          ((p :: ps).foldl bbStep (p, p)).2.y := by
    intro p ps
    rw [makeBoundingBoxFromPoints_cons]
    constructor <;> ring
  refine ⟨rfl, ?_, ?_, ?_⟩
  · intro p ps q hq
    obtain ⟨hb, _, _, _, _⟩ := bbFold_spec p ps
    obtain ⟨hx, hy, hx2, hy2⟩ := hb q hq
    obtain ⟨hsx, hsy⟩ := hsum p ps
    rw [makeBoundingBoxFromPoints_cons]
    exact ⟨hx, hy, by rw [← makeBoundingBoxFromPoints_cons, hsx]; exact hx2,
      by rw [← makeBoundingBoxFromPoints_cons, hsy]; exact hy2⟩
  · intro p ps
    obtain ⟨_, a1, a2, a3, a4⟩ := bbFold_spec p ps
    obtain ⟨hsx, hsy⟩ := hsum p ps
    refine ⟨?_, ?_, ?_, ?_⟩
    · obtain ⟨q, hq, h⟩ := a1
      exact ⟨q, hq, by rw [makeBoundingBoxFromPoints_cons]; exact h.symm⟩
    · obtain ⟨q, hq, h⟩ := a2
      exact ⟨q, hq, by rw [makeBoundingBoxFromPoints_cons]; exact h.symm⟩
    · obtain ⟨q, hq, h⟩ := a3
      exact ⟨q, hq, by rw [hsx]; exact h.symm⟩
    · obtain ⟨q, hq, h⟩ := a4
      exact ⟨q, hq, by rw [hsy]; exact h.symm⟩
  · intro l₁ l₂ hp
    cases l₁ with
    | nil =>
      have h2 : l₂ = [] := (List.Perm.eq_nil hp.symm)
      subst h2
      rfl
    | cons p ps =>
      cases l₂ with
      | nil => exact absurd (List.Perm.eq_nil hp) (by simp)
      | cons r rs =>
        obtain ⟨hb1, a1, a2, a3, a4⟩ := bbFold_spec p ps
        obtain ⟨hb2, b1, b2, b3, b4⟩ := bbFold_spec r rs
        have hmem : ∀ z : XY α, z ∈ p :: ps ↔ z ∈ r :: rs := fun z => hp.mem_iff
        have e1 : ((p :: ps).foldl bbStep (p, p)).1.x =
            ((r :: rs).foldl bbStep (r, r)).1.x := by
          obtain ⟨q1, hq1, hv1⟩ := a1
          obtain ⟨q2, hq2, hv2⟩ := b1
          exact le_antisymm (hv2 ▸ (hb1 q2 ((hmem q2).mpr hq2)).1)
            (hv1 ▸ (hb2 q1 ((hmem q1).mp hq1)).1)
        have e2 : ((p :: ps).foldl bbStep (p, p)).1.y =
            ((r :: rs).foldl bbStep (r, r)).1.y := by
          obtain ⟨q1, hq1, hv1⟩ := a2
          obtain ⟨q2, hq2, hv2⟩ := b2
          exact le_antisymm (hv2 ▸ (hb1 q2 ((hmem q2).mpr hq2)).2.1)
            (hv1 ▸ (hb2 q1 ((hmem q1).mp hq1)).2.1)
        have e3 : ((p :: ps).foldl bbStep (p, p)).2.x =
            ((r :: rs).foldl bbStep (r, r)).2.x := by
          obtain ⟨q1, hq1, hv1⟩ := a3
          obtain ⟨q2, hq2, hv2⟩ := b3
          exact le_antisymm (hv1 ▸ (hb2 q1 ((hmem q1).mp hq1)).2.2.1)
            (hv2 ▸ (hb1 q2 ((hmem q2).mpr hq2)).2.2.1)
        have e4 : ((p :: ps).foldl bbStep (p, p)).2.y =
            ((r :: rs).foldl bbStep (r, r)).2.y := by
          obtain ⟨q1, hq1, hv1⟩ := a4
          obtain ⟨q2, hq2, hv2⟩ := b4
          exact le_antisymm (hv1 ▸ (hb2 q1 ((hmem q1).mp hq1)).2.2.2)
            (hv2 ▸ (hb1 q2 ((hmem q2).mpr hq2)).2.2.2)
        rw [makeBoundingBoxFromPoints_cons, makeBoundingBoxFromPoints_cons,
          e1, e2, e3, e4]

/-- Claim C10, witness: the membership part applied to a concrete list over
`ℚ` and the permutation part applied to a concrete transposition. -/
theorem C10_bounding_box_witness :
    ((⟨1, 2⟩ : XY ℚ) ∈ [(⟨1, 2⟩ : XY ℚ), ⟨3, 0⟩] ∧
      (makeBoundingBoxFromPoints [(⟨1, 2⟩ : XY ℚ), ⟨3, 0⟩]).left ≤ 1 ∧
      (makeBoundingBoxFromPoints [(⟨1, 2⟩ : XY ℚ), ⟨3, 0⟩]).top ≤ 2 ∧
      (1 : ℚ) ≤ (makeBoundingBoxFromPoints [(⟨1, 2⟩ : XY ℚ), ⟨3, 0⟩]).left +
        (makeBoundingBoxFromPoints [(⟨1, 2⟩ : XY ℚ), ⟨3, 0⟩]).width ∧
      (2 : ℚ) ≤ (makeBoundingBoxFromPoints [(⟨1, 2⟩ : XY ℚ), ⟨3, 0⟩]).top +
        (makeBoundingBoxFromPoints [(⟨1, 2⟩ : XY ℚ), ⟨3, 0⟩]).height) ∧
    (([(⟨1, 2⟩ : XY ℚ), ⟨3, 0⟩].Perm [⟨3, 0⟩, ⟨1, 2⟩]) ∧
      makeBoundingBoxFromPoints [(⟨1, 2⟩ : XY ℚ), ⟨3, 0⟩] =
        makeBoundingBoxFromPoints [(⟨3, 0⟩ : XY ℚ), ⟨1, 2⟩]) :=
  ⟨⟨by decide,
      C10_bounding_box.2.1 ⟨1, 2⟩ [⟨3, 0⟩] ⟨1, 2⟩ (by decide)⟩,
    ⟨by decide,
      C10_bounding_box.2.2.2 [(⟨1, 2⟩ : XY ℚ), ⟨3, 0⟩] [⟨3, 0⟩, ⟨1, 2⟩]
        (by decide)⟩⟩

/-- Claim C6 (amended): once the session holds more than one captured
point, calling `addPoint` with a point equal to the last captured point
returns `false` and leaves the whole session state unchanged.  With
exactly one captured point the source's `length > 1` guard lets the
duplicate through; see `C6_counterexample`. -/
theorem C6_duplicate_rejected_amended (st : PencilState) (p : XY ℚ)
    (hlen : 1 < st.points.length) (hlast : st.points.getLast? = some p) :
    addPoint st p = (false, st) := by
  unfold addPoint
  rw [if_pos ⟨hlen, hlast⟩]

/-- Claim C6, counterexample: with exactly one captured point, a duplicate
of that point is appended and `addPoint` returns `true` — the claim's
"regardless of how many points have been captured" fails for sessions with
a single point. -/
theorem C6_counterexample :
    (addPoint ⟨[⟨0, 0⟩], false, false⟩ ⟨0, 0⟩).1 = true ∧
      (addPoint ⟨[⟨0, 0⟩], false, false⟩ ⟨0, 0⟩).2.points =
        [⟨0, 0⟩, ⟨0, 0⟩] := by
  decide

/-- Claim C6, witness: the amended theorem applied at a session holding
two points, adding a duplicate of the second one. -/
theorem C6_duplicate_rejected_witness :
    (1 < ([(⟨0, 0⟩ : XY ℚ), ⟨1, 1⟩]).length) ∧
      ([(⟨0, 0⟩ : XY ℚ), ⟨1, 1⟩].getLast? = some ⟨1, 1⟩) ∧
      addPoint ⟨[⟨0, 0⟩, ⟨1, 1⟩], false, false⟩ ⟨1, 1⟩ =
        (false, ⟨[⟨0, 0⟩, ⟨1, 1⟩], false, false⟩) :=
  ⟨by decide, by decide,
    C6_duplicate_rejected_amended ⟨[⟨0, 0⟩, ⟨1, 1⟩], false, false⟩ ⟨1, 1⟩
      (by decide) (by decide)⟩

/-- Everything kept by the decimation loop comes from the examined list. -/
theorem decimateAux_subset (d : ℚ) (l : List (XY ℚ)) :
    ∀ (lp q : XY ℚ), q ∈ decimateAux d lp l → q ∈ l := by
  induction l with
  | nil =>
    intro lp q hq
    simp [decimateAux] at hq
  | cons p rest ih =>
    intro lp q hq
    simp only [decimateAux] at hq
    split_ifs at hq with h
    · rcases List.mem_cons.mp hq with rfl | hq2
      · exact List.mem_cons_self _ _
      · exact List.mem_cons_of_mem _ (ih p q hq2)
    · exact List.mem_cons_of_mem _ (ih lp q hq)

/-- Claim C7: for every input with at least 2 points and every threshold
and zoom, `decimatePoints` keeps at least 2 points, ends with the last
input point, and introduces no point absent from the input. -/
theorem C7_decimation_invariants (points : List (XY ℚ)) (distance zoom : ℚ)
    (hlen : 2 ≤ points.length) :
    2 ≤ (decimatePoints points distance zoom).length ∧
      (decimatePoints points distance zoom).getLast? = points.getLast? ∧
      ∀ q ∈ decimatePoints points distance zoom, q ∈ points := by
  match points with
  | [] => simp at hlen
  | [p] => simp at hlen
  | [p, q] =>
    refine ⟨by simp [decimatePoints], rfl, fun r hr => ?_⟩
    simpa [decimatePoints] using hr
  | p0 :: p1 :: p2 :: rest =>
    refine ⟨?_, ?_, ?_⟩
    · simp [decimatePoints]
    · simp only [decimatePoints]
      rw [show (p0 :: (decimateAux ((distance / zoom) ^ 2) p0
            ((p1 :: p2 :: rest).take rest.length) ++
          [(p2 :: rest).getLast (List.cons_ne_nil _ _)])) =
            ((p0 :: decimateAux ((distance / zoom) ^ 2) p0
              ((p1 :: p2 :: rest).take rest.length)) ++
          [(p2 :: rest).getLast (List.cons_ne_nil _ _)]) from by simp]
      rw [List.getLast?_concat, List.getLast?_cons_cons,
        List.getLast?_cons_cons, List.getLast?_eq_getLast _ (List.cons_ne_nil _ _)]
    · intro q hq
      simp only [decimatePoints, List.mem_cons, List.mem_append] at hq
      rcases hq with rfl | hq | hq
      · exact List.mem_cons_self _ _
      · have h1 := decimateAux_subset _ _ _ _ hq
        have h2 := List.take_subset rest.length (p1 :: p2 :: rest) h1
        exact List.mem_cons_of_mem _ h2
      · rcases hq with rfl | hq
        · have := List.getLast_mem (l := p2 :: rest) (List.cons_ne_nil _ _)
          exact List.mem_cons_of_mem _ (List.mem_cons_of_mem _ this)
        · simp at hq

/-- Claim C7, witness: the theorem applied at a concrete four-point
stroke. -/
theorem C7_decimation_invariants_witness :
    2 ≤ ([(⟨0, 0⟩ : XY ℚ), ⟨5, 0⟩, ⟨6, 0⟩, ⟨9, 0⟩]).length ∧
      (2 ≤ (decimatePoints [(⟨0, 0⟩ : XY ℚ), ⟨5, 0⟩, ⟨6, 0⟩, ⟨9, 0⟩] 1 1).length ∧
        (decimatePoints [(⟨0, 0⟩ : XY ℚ), ⟨5, 0⟩, ⟨6, 0⟩, ⟨9, 0⟩] 1 1).getLast? =
          ([(⟨0, 0⟩ : XY ℚ), ⟨5, 0⟩, ⟨6, 0⟩, ⟨9, 0⟩]).getLast? ∧
        ∀ q ∈ decimatePoints [(⟨0, 0⟩ : XY ℚ), ⟨5, 0⟩, ⟨6, 0⟩, ⟨9, 0⟩] 1 1,
          q ∈ [(⟨0, 0⟩ : XY ℚ), ⟨5, 0⟩, ⟨6, 0⟩, ⟨9, 0⟩]) :=
  ⟨by decide,
    C7_decimation_invariants [(⟨0, 0⟩ : XY ℚ), ⟨5, 0⟩, ⟨6, 0⟩, ⟨9, 0⟩] 1 1
      (by decide)⟩

/-- Composing with the inverse on the left recovers the original matrix:
`M · (M⁻¹ · P) = P` for invertible `M`. -/
theorem mul_invert_left (m p : TMat2D) (h : m.a * m.d - m.b * m.c ≠ 0) :
    multiplyTransformMatrices m
      (multiplyTransformMatrices (invertTransform m) p false) false = p := by
  have h1 := invertTransform_entries m
  obtain ⟨a, b, c, d, e, f⟩ := m
  obtain ⟨pa, pb, pc, pd, pe, pf⟩ := p
  simp only [] at h h1
  rw [h1]
  ext <;> simp only [multiplyTransformMatrices] <;> field_simp <;> ring

/-- Claim C5: attaching an erase path to a plain (non-deep-erasable)
target creates an empty eraser mask when absent, appends to it a clone of
the path transformed by `invert(target matrix) · path matrix`, and sets
the target's dirty flag; when the target's matrix is invertible that
transform indeed re-expresses the path in the target's local frame
(target matrix · applied transform = original path matrix). -/
theorem C5_eraser_leaf_attachment (core : FCore) (children : FList)
    (path : EPath)
    (h : ¬(core.isCollection = true ∧ core.erasable = EMode.deep)) :
    addPathToObjectEraser (.mk core children) path =
      FObj.mk
        { core with
          eraser := some (core.eraser.getD [] ++
            [{ path with matrix := (multiplyTransformMatrices
                (invertTransform core.matrix) path.matrix false) }]),
          dirty := true }
        children ∧
    (core.matrix.a * core.matrix.d - core.matrix.b * core.matrix.c ≠ 0 →
      multiplyTransformMatrices core.matrix
        (multiplyTransformMatrices (invertTransform core.matrix)
          path.matrix false) false = path.matrix) := by
  constructor
  · rw [addPathToObjectEraser, if_neg h]
  · intro hdet
    exact mul_invert_left core.matrix path.matrix hdet

/-- Claim C5, witness: the theorem applied to a leaf object with no
eraser and a diagonal matrix `[2, 0, 0, 1, 0, 0]`. -/
theorem C5_eraser_leaf_attachment_witness :
    (¬((false : Bool) = true ∧ EMode.yes = EMode.deep)) ∧
      ((2 : ℝ) * 1 - 0 * 0 ≠ 0) ∧
      addPathToObjectEraser
        (.mk ⟨EMode.yes, true, false, none, ⟨2, 0, 0, 1, 0, 0⟩, false, none⟩
          .nil)
        ⟨iMatrix, []⟩ =
        FObj.mk
          ⟨EMode.yes, true, true,
           some [⟨multiplyTransformMatrices (invertTransform ⟨2, 0, 0, 1, 0, 0⟩)
              iMatrix false, []⟩],
           ⟨2, 0, 0, 1, 0, 0⟩, false, none⟩ .nil ∧
      multiplyTransformMatrices ⟨2, 0, 0, 1, 0, 0⟩
        (multiplyTransformMatrices (invertTransform ⟨2, 0, 0, 1, 0, 0⟩)
          iMatrix false) false = iMatrix :=
  ⟨by simp, by norm_num,
    (C5_eraser_leaf_attachment
      ⟨EMode.yes, true, false, none, ⟨2, 0, 0, 1, 0, 0⟩, false, none⟩ .nil
      ⟨iMatrix, []⟩ (by simp)).1,
    (C5_eraser_leaf_attachment
      ⟨EMode.yes, true, false, none, ⟨2, 0, 0, 1, 0, 0⟩, false, none⟩ .nil
      ⟨iMatrix, []⟩ (by simp)).2 (by norm_num)⟩

/-- Claim C8: when after decimation fewer than two points remain, or the
conversion yields the empty SVG path, finalization creates no path,
leaves every object and drawable untouched, and the call sequence is
exactly close, clear, fire `erasing:end`, request re-render — in
particular neither `before:path:created` nor `path:created` fires,
whatever the external intersection test and path constructor do. -/
theorem C8_degenerate_erase_discarded (st : EraserBrushState)
    (objects : FList) (bg ov : Option FObj)
    (intersects : FObj → EPath → Bool) (mkPath : List PathCmd → EPath)
    (hdeg :
      (if st.decimate ≠ 0 then decimatePoints st.points st.decimate st.zoom
        else st.points).length ≤ 1 ∨
      isEmptySVGPath (convertPointsToSVGPath st.width
        (if st.decimate ≠ 0 then decimatePoints st.points st.decimate st.zoom
          else st.points)) = true) :
    (finalizeAndAddPath st objects bg ov intersects mkPath).createdPath =
        none ∧
      (finalizeAndAddPath st objects bg ov intersects mkPath).objects =
        objects ∧
      (finalizeAndAddPath st objects bg ov intersects mkPath).backgroundImage =
        bg ∧
      (finalizeAndAddPath st objects bg ov intersects mkPath).overlayImage =
        ov ∧
      (finalizeAndAddPath st objects bg ov intersects mkPath).calls =
        [ECall.closePath, ECall.clearContext, ECall.fireErasingEnd,
         ECall.requestRenderAll] ∧
      ECall.fireBeforePathCreated ∉
        (finalizeAndAddPath st objects bg ov intersects mkPath).calls ∧
      ECall.firePathCreated ∉
        (finalizeAndAddPath st objects bg ov intersects mkPath).calls := by
  by_cases hlen :
      1 < (if st.decimate ≠ 0 then
        decimatePoints st.points st.decimate st.zoom else st.points).length
  · have hempty : isEmptySVGPath (convertPointsToSVGPath st.width
        (if st.decimate ≠ 0 then decimatePoints st.points st.decimate st.zoom
          else st.points)) = true := by
      rcases hdeg with h | h
      · omega
      · exact h
    simp only [finalizeAndAddPath, if_pos hlen, hempty, if_true]
    simp
  · simp only [finalizeAndAddPath, if_neg hlen]
    simp

/-- Claim C8, witness: the theorem applied to a one-point erase gesture
(decimation threshold 1), a trivial intersection test and a trivial path
constructor. -/
theorem C8_degenerate_erase_discarded_witness :
    ((if (1 : ℚ) ≠ 0 then
        decimatePoints [(⟨0, 0⟩ : XY ℚ)] 1 1 else [⟨0, 0⟩]).length ≤ 1 ∨
      isEmptySVGPath (convertPointsToSVGPath 1
        (if (1 : ℚ) ≠ 0 then decimatePoints [(⟨0, 0⟩ : XY ℚ)] 1 1
          else [⟨0, 0⟩])) = true) ∧
      (finalizeAndAddPath ⟨[⟨0, 0⟩], 1, 1, 1, true⟩ .nil none none
          (fun _ _ => false) (fun _ => ⟨iMatrix, []⟩)).createdPath = none ∧
      (finalizeAndAddPath ⟨[⟨0, 0⟩], 1, 1, 1, true⟩ .nil none none
          (fun _ _ => false) (fun _ => ⟨iMatrix, []⟩)).calls =
        [ECall.closePath, ECall.clearContext, ECall.fireErasingEnd,
         ECall.requestRenderAll] :=
  ⟨by decide,
    (C8_degenerate_erase_discarded ⟨[⟨0, 0⟩], 1, 1, 1, true⟩ .nil none none
      (fun _ _ => false) (fun _ => ⟨iMatrix, []⟩) (by decide)).1,
    (C8_degenerate_erase_discarded ⟨[⟨0, 0⟩], 1, 1, 1, true⟩ .nil none none
      (fun _ _ => false) (fun _ => ⟨iMatrix, []⟩) (by decide)).2.2.2.2.1⟩

theorem updateForestAt_cons0 (a : Addr) (f : FObj → FObj) (o : FObj)
    (rest : FList) :
    updateForestAt (consAddr 0 a) f (.cons o rest) =
      .cons (updateObjAt a f o) rest := rfl

theorem updateForestAt_shift (a : Addr) (f : FObj → FObj) (o : FObj)
    (rest : FList) :
    updateForestAt (shiftAddr a) f (.cons o rest) =
      .cons o (updateForestAt a f rest) := by
  cases a with
  | nil => rfl
  | cons i r => rfl

theorem foldVis_cons0 (as : List Addr) (o : FObj) (rest : FList) :
    as.foldl (fun acc a => updateForestAt (consAddr 0 a) restoreVisible acc)
        (.cons o rest) =
      .cons (as.foldl (fun acc a => updateObjAt a restoreVisible acc) o)
        rest := by
  induction as generalizing o with
  | nil => rfl
  | cons a as ih =>
    simp only [List.foldl_cons, updateForestAt_cons0]
    exact ih _

theorem foldVis_shift (as : List Addr) (o : FObj) (rest : FList) :
    as.foldl (fun acc a => updateForestAt (shiftAddr a) restoreVisible acc)
        (.cons o rest) =
      .cons o (as.foldl (fun acc a => updateForestAt a restoreVisible acc)
        rest) := by
  induction as generalizing rest with
  | nil => rfl
  | cons a as ih =>
    simp only [List.foldl_cons, updateForestAt_shift]
    exact ih _

theorem foldEr_cons0 (es : List (Addr × List EPath)) (o : FObj)
    (rest : FList) :
    es.foldl
        (fun acc p => updateForestAt (consAddr 0 p.1) (restoreEraser p.2) acc)
        (.cons o rest) =
      .cons (es.foldl (fun acc p => updateObjAt p.1 (restoreEraser p.2) acc) o)
        rest := by
  induction es generalizing o with
  | nil => rfl
  | cons e es ih =>
    simp only [List.foldl_cons, updateForestAt_cons0]
    exact ih _

theorem foldEr_shift (es : List (Addr × List EPath)) (o : FObj)
    (rest : FList) :
    es.foldl
        (fun acc p => updateForestAt (shiftAddr p.1) (restoreEraser p.2) acc)
        (.cons o rest) =
      .cons o (es.foldl
        (fun acc p => updateForestAt p.1 (restoreEraser p.2) acc) rest) := by
  induction es generalizing rest with
  | nil => rfl
  | cons e es ih =>
    simp only [List.foldl_cons, updateForestAt_shift]
    exact ih _

theorem foldCol_cons0 (as : List Addr) (o : FObj) (rest : FList) :
    as.foldl (fun acc a => updateForestAt (consAddr 0 a) markDirty acc)
        (.cons o rest) =
      .cons (as.foldl (fun acc a => updateObjAt a markDirty acc) o) rest := by
  induction as generalizing o with
  | nil => rfl
  | cons a as ih =>
    simp only [List.foldl_cons, updateForestAt_cons0]
    exact ih _

theorem foldCol_shift (as : List Addr) (o : FObj) (rest : FList) :
    as.foldl (fun acc a => updateForestAt (shiftAddr a) markDirty acc)
        (.cons o rest) =
      .cons o (as.foldl (fun acc a => updateForestAt a markDirty acc)
        rest) := by
  induction as generalizing rest with
  | nil => rfl
  | cons a as ih =>
    simp only [List.foldl_cons, updateForestAt_shift]
    exact ih _

/-- Replaying a context assembled from a head context (prefixed with
index 0) and a tail context (indices shifted) acts independently on the
head object and the tail forest. -/
theorem applyRestoration_cons (c₀ c₁ : RestorationContext) (o : FObj)
    (rest : FList) :
    applyRestoration
        (ctxAppend (ctxMapAddr (consAddr 0) c₀) (ctxMapAddr shiftAddr c₁))
        (.cons o rest) =
      .cons (applyRestorationObj c₀ o) (applyRestoration c₁ rest) := by
  obtain ⟨v0, e0, k0⟩ := c₀
  obtain ⟨v1, e1, k1⟩ := c₁
  simp only [applyRestoration, applyRestorationObj, ctxAppend, ctxMapAddr,
    List.foldl_append, List.foldl_map]
  rw [foldVis_cons0, foldVis_shift, foldEr_cons0, foldEr_shift,
    foldCol_cons0, foldCol_shift]

theorem shiftAddr_ne_nil {a : Addr} (h : a ≠ []) : shiftAddr a ≠ [] := by
  cases a with
  | nil => exact absurd rfl h
  | cons i r => simp [shiftAddr]

/-- Every address recorded by the list traversal points into the list
(no entry addresses the enclosing object itself). -/
theorem prepList_ctx_ne_nil (inverted : Bool) :
    (l : FList) →
      (∀ a ∈ (prepList inverted l).2.1.visibility, a ≠ []) ∧
      (∀ p ∈ (prepList inverted l).2.1.eraserSaved, p.1 ≠ []) ∧
      (∀ a ∈ (prepList inverted l).2.1.collection, a ≠ [])
  | .nil => by
    simp [prepList]
  | .cons o rest => by
    have ih := prepList_ctx_ne_nil inverted rest
    simp only [prepList, ctxAppend, ctxMapAddr, List.mem_append,
      List.mem_map]
    refine ⟨?_, ?_, ?_⟩
    · rintro a (⟨b, _, rfl⟩ | ⟨b, hb, rfl⟩)
      · simp [consAddr]
      · exact shiftAddr_ne_nil (ih.1 b hb)
    · rintro p (⟨b, _, rfl⟩ | ⟨b, hb, rfl⟩)
      · simp [consAddr]
      · exact shiftAddr_ne_nil (ih.2.1 b hb)
    · rintro a (⟨b, _, rfl⟩ | ⟨b, hb, rfl⟩)
      · simp [consAddr]
      · exact shiftAddr_ne_nil (ih.2.2 b hb)

theorem updateObjAt_ne_nil {a : Addr} (h : a ≠ []) (f : FObj → FObj)
    (c : FCore) (ch : FList) :
    updateObjAt a f (.mk c ch) = .mk c (updateForestAt a f ch) := by
  cases a with
  | nil => exact absurd rfl h
  | cons i r => rfl

theorem foldVisObj_ne_nil (as : List Addr) (h : ∀ a ∈ as, a ≠ [])
    (c : FCore) (ch : FList) :
    as.foldl (fun acc a => updateObjAt a restoreVisible acc) (.mk c ch) =
      .mk c (as.foldl (fun acc a => updateForestAt a restoreVisible acc)
        ch) := by
  induction as generalizing ch with
  | nil => rfl
  | cons a as ih =>
    simp only [List.foldl_cons,
      updateObjAt_ne_nil (h a (List.mem_cons_self _ _)) restoreVisible c ch]
    exact ih (fun b hb => h b (List.mem_cons_of_mem _ hb)) _

theorem foldErObj_ne_nil (es : List (Addr × List EPath))
    (h : ∀ p ∈ es, p.1 ≠ []) (c : FCore) (ch : FList) :
    es.foldl (fun acc p => updateObjAt p.1 (restoreEraser p.2) acc)
        (.mk c ch) =
      .mk c (es.foldl
        (fun acc p => updateForestAt p.1 (restoreEraser p.2) acc) ch) := by
  induction es generalizing ch with
  | nil => rfl
  | cons e es ih =>
    simp only [List.foldl_cons,
      updateObjAt_ne_nil (h e (List.mem_cons_self _ _)) (restoreEraser e.2) c ch]
    exact ih (fun p hp => h p (List.mem_cons_of_mem _ hp)) _

theorem foldColObj_ne_nil (as : List Addr) (h : ∀ a ∈ as, a ≠ [])
    (c : FCore) (ch : FList) :
    as.foldl (fun acc a => updateObjAt a markDirty acc) (.mk c ch) =
      .mk c (as.foldl (fun acc a => updateForestAt a markDirty acc) ch) := by
  induction as generalizing ch with
  | nil => rfl
  | cons a as ih =>
    simp only [List.foldl_cons,
      updateObjAt_ne_nil (h a (List.mem_cons_self _ _)) markDirty c ch]
    exact ih (fun b hb => h b (List.mem_cons_of_mem _ hb)) _

theorem markDirty_markDirty (o : FObj) : markDirty (markDirty o) =
    markDirty o := by
  cases o with
  | mk c ch => rfl

theorem foldColObj_replicate (n : ℕ) (o : FObj) :
    (List.replicate n ([] : Addr)).foldl
        (fun acc a => updateObjAt a markDirty acc) o =
      if n = 0 then o else markDirty o := by
  induction n generalizing o with
  | zero => rfl
  | succ n ih =>
    simp only [List.replicate_succ, List.foldl_cons]
    rw [show updateObjAt ([] : Addr) markDirty o = markDirty o from rfl, ih]
    by_cases hn : n = 0
    · simp [hn]
    · simp [hn, markDirty_markDirty]

theorem scrubObj_markDirty (o : FObj) : scrubObj (markDirty o) =
    scrubObj o := by
  cases o with
  | mk c ch => rfl

mutual
/-- Replaying the context recorded by the traversal restores every field
except possibly dirty flags — object version. -/
theorem prep_restore_obj (inverted : Bool) : (o : FObj) →
    scrubObj (applyRestorationObj (prepObj inverted o).2.1
      (prepObj inverted o).1) = scrubObj o
  | .mk core children => by
    by_cases h1 : core.isCollection = true ∧ core.erasable = EMode.deep
    · have ihc := prep_restore_list inverted children
      obtain ⟨hv, he, hc⟩ := prepList_ctx_ne_nil inverted children
      simp only [applyRestoration] at ihc
      simp only [prepObj, if_pos h1]
      simp only [applyRestorationObj, ctxAppend, List.append_nil,
        List.foldl_append]
      rw [foldVisObj_ne_nil _ hv, foldErObj_ne_nil _ he,
        foldColObj_ne_nil _ hc, foldColObj_replicate]
      by_cases hn : (prepList inverted children).2.2 = 0
      · rw [if_pos hn]
        simp only [scrubObj]
        rw [ihc]
      · rw [if_neg hn, scrubObj_markDirty]
        simp only [scrubObj]
        rw [ihc]
    · by_cases h2 : inverted = false ∧ core.erasable ≠ EMode.no ∧
          core.visible = true
      · simp only [prepObj, if_neg h1, if_pos h2]
        simp only [applyRestorationObj, List.foldl_cons, List.foldl_nil,
          updateObjAt, restoreVisible]
        have hcv : ({ core with visible := true } : FCore) = core := by
          rw [← h2.2.2]
        rw [hcv]
      · rcases her : core.eraser with _ | ev
        · simp only [prepObj, if_neg h1, if_neg h2, her]
          simp only [applyRestorationObj, List.foldl_nil]
        · by_cases h3 : inverted = true ∧ core.erasable ≠ EMode.no ∧
              core.visible = true
          · simp only [prepObj, if_neg h1, if_neg h2, her, if_pos h3]
            simp only [applyRestorationObj, List.foldl_cons, List.foldl_nil,
              updateObjAt, restoreEraser]
            simp only [scrubObj]
            rw [her]
          · simp only [prepObj, if_neg h1, if_neg h2, her, if_neg h3]
            simp only [applyRestorationObj, List.foldl_nil]

/-- Replaying the context recorded by the traversal restores every field
except possibly dirty flags — forest version. -/
theorem prep_restore_list (inverted : Bool) : (l : FList) →
    scrubList (applyRestoration (prepList inverted l).2.1
      (prepList inverted l).1) = scrubList l
  | .nil => rfl
  | .cons o rest => by
    have iho := prep_restore_obj inverted o
    have ihr := prep_restore_list inverted rest
    simp only [prepList]
    rw [applyRestoration_cons]
    simp only [scrubList]
    rw [iho, ihr]
end

/-- Claim C9: `preparePattern` restores every temporary mutation: after it
returns, every scene object (at any nesting depth) and the background and
overlay images agree with their pre-call values on every field except
possibly the dirty flag — in particular `visible` and `eraser` are always
restored.  Stated via the dirty-clearing projections `scrubObj` /
`scrubList`. -/
theorem C9_preparePattern_restores (inverted : Bool) (st : CanvasState) :
    scrubList (preparePattern inverted st).objects = scrubList st.objects ∧
      (preparePattern inverted st).backgroundImage.map scrubObj =
        st.backgroundImage.map scrubObj ∧
      (preparePattern inverted st).overlayImage.map scrubObj =
        st.overlayImage.map scrubObj := by
  obtain ⟨objs, bgI, ovI, bgC, ovC⟩ := st
  have hobj := prep_restore_list inverted objs
  have himg : ∀ (c : FCore) (ch : FList) (ev : List EPath),
      c.eraser = some ev →
      scrubObj (FObj.mk { c with eraser := some ev, dirty := true } ch) =
        scrubObj (FObj.mk c ch) := by
    intro c ch ev hev
    simp only [scrubObj]
    rw [← hev]
  cases inverted with
  | false =>
    cases bgI with
    | none =>
      cases ovI with
      | none =>
        simp only [preparePattern]
        split_ifs <;> simp_all [hobj]
      | some ovo =>
        simp only [preparePattern]
        split_ifs <;> simp_all [hobj]
    | some bgo =>
      cases ovI with
      | none =>
        simp only [preparePattern]
        split_ifs <;> simp_all [hobj]
      | some ovo =>
        simp only [preparePattern]
        split_ifs <;> simp_all [hobj]
  | true =>
    cases bgI with
    | none =>
      cases ovI with
      | none =>
        simp only [preparePattern]
        simp [hobj]
      | some ovo =>
        cases ovo with
        | mk oc och =>
          rcases hoe : oc.eraser with _ | ev
          · simp only [preparePattern, FObj.core, hoe]
            simp [hobj, hoe]
          · simp only [preparePattern, FObj.core, hoe]
            simp [hobj, hoe, himg oc och ev hoe]
    | some bgo =>
      cases bgo with
      | mk bc bch =>
        rcases hbe : bc.eraser with _ | bev
        · cases ovI with
          | none =>
            simp only [preparePattern, FObj.core, hbe]
            simp [hobj, hbe]
          | some ovo =>
            cases ovo with
            | mk oc och =>
              rcases hoe : oc.eraser with _ | ev
              · simp only [preparePattern, FObj.core, hbe, hoe]
                simp [hobj, hbe, hoe]
              · simp only [preparePattern, FObj.core, hbe, hoe]
                simp [hobj, hbe, hoe, himg oc och ev hoe]
        · cases ovI with
          | none =>
            simp only [preparePattern, FObj.core, hbe]
            simp [hobj, hbe, himg bc bch bev hbe]
          | some ovo =>
            cases ovo with
            | mk oc och =>
              rcases hoe : oc.eraser with _ | ev
              · simp only [preparePattern, FObj.core, hbe, hoe]
                simp [hobj, hbe, hoe, himg bc bch bev hbe]
              · simp only [preparePattern, FObj.core, hbe, hoe]
                simp [hobj, hbe, hoe, himg bc bch bev hbe, himg oc och ev hoe]

end Fabric
